import Mathlib

/-!
Shallow embedding of the arbitrary-precision integer engine of bcrypto
(the BigInt-backed bn.js implementation): Euclidean division and modulo,
extended gcd, modular inverse, modular exponentiation, the Jacobi symbol,
modular square roots, the strong-Lucas parameter search and byte
serialization, together with the reduction-context ("red") layer.

JavaScript BigInt values are modelled as `Int`.  JavaScript `/` and `%`
on BigInt truncate toward zero, hence they are rendered as `Int.tdiv`
and `Int.tmod`; BigInt `>>` is an arithmetic shift (`Int.shiftRight` on
non-negative shift counts), BigInt `&` is two's-complement bitwise and
(`Int.land`).  Code paths that throw are modelled with `Except String`.
Source loops without a structural termination argument carry a fuel
parameter; exhausting the fuel yields an `Except.error`, so a diverging
source loop never produces a value.
-/

namespace Bcrypto

/-! ### Facts about truncating division, needed for loop termination -/

/-- Truncating remainder has the magnitude of the remainder of the
magnitudes (shape of `Int.tmod` on the four sign cases). -/
theorem natAbs_tmod (a b : Int) : (a.tmod b).natAbs = a.natAbs % b.natAbs := by
  cases a <;> cases b <;>
    simp only [Int.tmod, Int.natAbs_neg, Int.natAbs_ofNat, Int.natAbs_negSucc] <;>
    rfl

theorem natAbs_tmod_lt (a : Int) {b : Int} (hb : b ≠ 0) :
    (a.tmod b).natAbs < b.natAbs := by
  rw [natAbs_tmod]
  exact Nat.mod_lt _ (Int.natAbs_pos.mpr hb)

theorem natAbs_shiftRight_le (z : Int) (s : Nat) :
    (Int.shiftRight z s).natAbs ≤ z.natAbs := by
  cases z with
  | ofNat n =>
    simp only [Int.shiftRight, Int.natAbs_ofNat, Nat.shiftRight_eq_div_pow]
    exact Nat.div_le_self n (2 ^ s)
  | negSucc n =>
    simp only [Int.shiftRight, Int.natAbs_negSucc, Nat.shiftRight_eq_div_pow]
    exact Nat.succ_le_succ (Nat.div_le_self n (2 ^ s))

theorem shiftRight_toNat_lt {y : Int} (hy : 0 < y) :
    (Int.shiftRight y 1).toNat < y.toNat := by
  cases y with
  | ofNat n =>
    have h0 : 0 < n := by simpa using hy
    have e1 : Int.shiftRight (Int.ofNat n) 1 = Int.ofNat (n >>> 1) := rfl
    have e2 : ∀ m : Nat, (Int.ofNat m).toNat = m := fun m => rfl
    rw [e1, e2, e2, Nat.shiftRight_eq_div_pow, pow_one]
    exact Nat.div_lt_self h0 one_lt_two
  | negSucc n =>
    exact absurd (lt_trans hy (Int.negSucc_lt_zero n)) (lt_irrefl 0)

/-! ### Definitions: helpers, Euclidean division, bitwise layer -/

/-- `isErr r` holds exactly when the embedded operation threw. -/
def isErr {α : Type} : Except String α → Bool
  | Except.error _ => true
  | Except.ok _ => false

/-- `function abs(x)`. -/
def absJS (x : Int) : Int := if x < 0 then -x else x

/-- JavaScript BigInt left shift `x << k` (an arithmetic right shift when
`k` is negative). -/
def jsShl (x : Int) (k : Int) : Int :=
  if 0 ≤ k then x * 2 ^ k.toNat else Int.shiftRight x (-k).toNat

/-- JavaScript BigInt right shift `x >> k` (arithmetic, so it rounds
toward negative infinity; a left shift when `k` is negative). -/
def jsShr (x : Int) (k : Int) : Int :=
  if 0 ≤ k then Int.shiftRight x k.toNat else x * 2 ^ (-k).toNat

/-- Body of the `mod` helper (Euclidean modulo): truncating remainder
followed by one sign correction.  The `assert(y !== 0n)` guard lives in
`mod`.  Inner loops of the source call `mod` only with a modulus that is
provably non-zero on every reachable state; they use `modCore`
directly. -/
def modCore (x y : Int) : Int :=
  let r := x.tmod y
  if r < 0 then (if y < 0 then r - y else r + y) else r

/-- `function mod(x, y)` of bn.js: Euclidean modulo; the assertion
`y !== 0n` throws. -/
def mod (x y : Int) : Except String Int :=
  if y = 0 then Except.error "Assertion failed." else Except.ok (modCore x y)

/-- `function div(x, y)` of bn.js: Euclidean division; the assertion
`y !== 0n` throws. -/
def div (x y : Int) : Except String Int :=
  if y = 0 then Except.error "Assertion failed." else
  Except.ok (
    let q := x.tdiv y
    if x ≥ 0 then q
    else
      let r := x - q * y
      if r < 0 then (if y < 0 then q + 1 else q - 1) else q)

/-- Trailing zero bits of a natural number (`function zeroBits` counts
them with word-sized strides; the count is the same). -/
def zeroBitsNat (n : Nat) : Nat :=
  if h : n = 0 then 0
  else if n % 2 = 1 then 0 else zeroBitsNat (n / 2) + 1
termination_by n
decreasing_by exact Nat.div_lt_self (Nat.pos_of_ne_zero h) one_lt_two

/-- `function zeroBits(x)`: trailing zeros of the magnitude, `0` at
zero. -/
def zeroBits (x : Int) : Nat := zeroBitsNat x.natAbs

/-- Bit count of a natural number (zero for zero). -/
def bitLenNat (n : Nat) : Nat :=
  if h : n = 0 then 0 else bitLenNat (n / 2) + 1
termination_by n
decreasing_by exact Nat.div_lt_self (Nat.pos_of_ne_zero h) one_lt_two

/-- `function countWords(x, 1)` ~ the bit length of the magnitude. -/
def bitLength (x : Int) : Nat := bitLenNat x.natAbs

/-- `function byteLength(x)` = `countWords(x, 8)`. -/
def byteLength (x : Int) : Nat := (bitLenNat x.natAbs + 7) / 8

/-- `function uand(x, y)`: bitwise and of the magnitudes carrying the
sign of `x`. -/
def uand (x y : Int) : Int :=
  let num := ((x.natAbs &&& y.natAbs : Nat) : Int)
  if x < 0 then -num else num

/-- `function uor(x, y)`. -/
def uor (x y : Int) : Int :=
  let num := ((x.natAbs ||| y.natAbs : Nat) : Int)
  if x < 0 then -num else num

/-- `function uxor(x, y)`. -/
def uxor (x y : Int) : Int :=
  let num := ((x.natAbs ^^^ y.natAbs : Nat) : Int)
  if x < 0 then -num else num

/-- `function ushr(x, y)`: shift of the magnitude carrying the sign. -/
def ushr (x y : Int) : Int :=
  if x < 0 then -(jsShr (-x) y) else jsShr x y

/-! ### Definitions: extended Euclid, inverse, modular exponentiation -/

/-- The iterative loop of `function egcd(x, y)`: state
`(or, r, os, s, ot, t)`; each step computes `q = or / r` (truncating) and
cross-updates `[or, r]`, `[os, s]`, `[ot, t]`.  On exit it returns
`[os, ot, or]`. -/
def egcdLoop (a b os s ot t : Int) : Int × Int × Int :=
  if hb : b = 0 then (os, ot, a)
  else
    let q := a.tdiv b
    egcdLoop b (a - q * b) s (os - q * s) t (ot - q * t)
termination_by b.natAbs
decreasing_by
  rw [Int.mul_comm, ← Int.tmod_def]
  exact natAbs_tmod_lt a hb

/-- `function egcd(x, y)`: iterative extended Euclid on the magnitudes
followed by the source's sign corrections. -/
def egcd (x y : Int) : Int × Int × Int :=
  let r0 := egcdLoop (x.natAbs : Int) (y.natAbs : Int) 1 0 0 1
  let os := r0.1
  let ot := r0.2.1
  let og := r0.2.2
  let os2 := if og < 0 then -os else os
  let ot2 := if og < 0 then -ot else ot
  let og2 := if og < 0 then -og else og
  let os3 := if x < 0 then -os2 else os2
  let ot3 := if y < 0 then -ot2 else ot2
  (os3, ot3, og2)

/-- The `while (nr !== 0n)` loop of `function invert(x, y)`; state
`(t, nt, r, nr)`, returning the final `(r, t)`. -/
def invertLoop (t nt r nr : Int) : Int × Int :=
  if h : nr = 0 then (r, t)
  else
    let q := r.tdiv nr
    invertLoop nt (t - q * nt) nr (r - q * nr)
termination_by nr.natAbs
decreasing_by
  rw [Int.mul_comm, ← Int.tmod_def]
  exact natAbs_tmod_lt r h

/-- `function invert(x, y)`: extended Euclid on `(y, x mod y)`; throws
"Not invertible." for `y = 1` or a non-trivial gcd. -/
def invert (x y : Int) : Except String Int :=
  if y ≤ 0 then Except.error "Assertion failed."
  else if y = 1 then Except.error "Not invertible."
  else
    let x1 := if x < 0 ∨ x ≥ y then modCore x y else x
    let res := invertLoop 0 1 y x1
    let r := if res.1 < 0 then -res.1 else res.1
    let t := if res.1 < 0 then -res.2 else res.2
    if r ≠ 1 then Except.error "Not invertible."
    else Except.ok (if t < 0 then t + y else t)

/-- The `while (y > 0n)` square-and-multiply loop of
`function powm(x, y, m)`. -/
def powmLoop (m x y r : Int) : Int :=
  if hy : 0 < y then
    powmLoop m ((x ^ 2).tmod m) (Int.shiftRight y 1)
      (if y.tmod 2 = 1 then (r * x).tmod m else r)
  else r
termination_by y.toNat
decreasing_by exact shiftRight_toNat_lt hy

/-- `function powm(x, y, m)`: GMP behavior, inverting `x` first when the
exponent is negative. -/
def powm (x y m : Int) : Except String Int :=
  if m ≤ 0 then Except.error "Assertion failed."
  else if y < 0 then
    match invert x m with
    | Except.error e => Except.error e
    | Except.ok xi => Except.ok (powmLoop m xi (-y) 1)
  else Except.ok (powmLoop m (modCore x m) y 1)

/-- `function fermat(x, y)`: inversion by Fermat's little theorem. -/
def fermat (x y : Int) : Except String Int :=
  if y ≤ 0 then Except.error "Assertion failed."
  else if y = 1 then Except.error "Not invertible."
  else
    match powm x (y - 2) y with
    | Except.error e => Except.error e
    | Except.ok inv =>
      if inv = 0 then Except.error "Not invertible." else Except.ok inv

/-! ### Definitions: Jacobi symbol -/

/-- The `for (;;)` loop of `function jacobi(x, y)`; state `(a, b, j)`.
On every state the source reaches, `b` is odd and positive, so the
division-by-zero guard is unreachable (JS BigInt `%` throws on a zero
divisor). -/
def jacobiLoop (a b : Int) (j : Int) : Except String Int :=
  if b = 1 then Except.ok j
  else if a = 0 then Except.ok 0
  else if hb : b = 0 then Except.error "Division by zero."
  else
    let a1 := a.tmod b
    if a1 = 0 then Except.ok 0
    else
      let s := zeroBits a1
      let j1 := if s % 2 = 1 ∧ (Int.land b 7 = 3 ∨ Int.land b 7 = 5) then -j else j
      let c := Int.shiftRight a1 s
      let j2 := if Int.land b 3 = 3 ∧ Int.land c 3 = 3 then -j1 else j1
      jacobiLoop b c j2
termination_by b.natAbs
decreasing_by
  have h1 : (a.tmod b).natAbs < b.natAbs := natAbs_tmod_lt a hb
  exact Nat.lt_of_le_of_lt (natAbs_shiftRight_le _ _) h1

/-- `function jacobi(x, y)`: throws for even or zero `y`, normalizes the
signs, then runs the binary Jacobi loop. -/
def jacobi (x y : Int) : Except String Int :=
  if y = 0 ∨ Int.land y 1 = 0 then Except.error "jacobi: num must be odd."
  else
    let j0 : Int := if y < 0 ∧ x < 0 then -1 else 1
    let b0 := if y < 0 then -y else y
    let a0 := if x < 0 then modCore x b0 else x
    jacobiLoop a0 b0 j0

/-! ### Definitions: modular square root -/

/-- The `while (jacobi(n, p) !== -1)` scan of `sqrtm` for a quadratic
non-residue, with fuel (the source scans unboundedly; for an odd prime
`p` a non-residue below `p` exists, so the fuel `p.natAbs` used by
`sqrtm` never runs out on reachable inputs). -/
def findNonResidue (p : Int) : Nat → Int → Except String Int
  | 0, _ => Except.error "Fuel exhausted."
  | fuel + 1, n =>
    match jacobi n p with
    | Except.error e => Except.error e
    | Except.ok j => if j = -1 then Except.ok n else findNonResidue p fuel (n + 1)

/-- The inner `while (t !== 1n)` loop of Tonelli-Shanks: repeatedly
squares `t` mod `p`, counting the steps. -/
def tsCountM (p : Int) (t : Int) (m : Nat) (fuel : Nat) : Except String Nat :=
  if t = 1 then Except.ok m
  else
    match fuel with
    | 0 => Except.error "Fuel exhausted."
    | f + 1 => tsCountM p ((t ^ 2).tmod p) (m + 1) f
termination_by fuel

/-- The outer `for (;;)` loop of Tonelli-Shanks in `sqrtm`; state
`(y, b, g, k)`. -/
def tsLoop (p : Int) : Nat → Int → Int → Int → Nat → Except String Int
  | 0, _, _, _, _ => Except.error "Fuel exhausted."
  | fuel + 1, y, b, g, k =>
    match tsCountM p b 0 (k + 1) with
    | Except.error e => Except.error e
    | Except.ok m =>
      if m = 0 then Except.ok y
      else if m = k then Except.error "Assertion failed."
      else
        match powm g ((2 : Int) ^ (k - m - 1)) p with
        | Except.error e => Except.error e
        | Except.ok t1 =>
          let g2 := (t1 ^ 2).tmod p
          let y2 := (y * t1).tmod p
          let b2 := (b * g2).tmod p
          tsLoop p fuel y2 b2 g2 m

/-- `function sqrtm(x, p)`: dispatch on the Jacobi symbol, then the
`p = 3 mod 4` exponentiation, the `p = 5 mod 8` Atkin path, or general
Tonelli-Shanks. -/
def sqrtm (x p : Int) : Except String Int :=
  if p ≤ 0 then Except.error "Assertion failed."
  else
    match jacobi x p with
    | Except.error e => Except.error e
    | Except.ok j =>
      if j = -1 then Except.error "X is not a square mod P."
      else if j = 0 then Except.ok 0
      else
        let x1 := if x < 0 ∨ x ≥ p then modCore x p else x
        if Int.land p 3 = 3 then
          powm x1 (Int.shiftRight (p + 1) 2) p
        else if Int.land p 7 = 5 then
          let e := Int.shiftRight p 3
          let t := jsShl x1 1
          match powm t e p with
          | Except.error e2 => Except.error e2
          | Except.ok a =>
            let b1 := (a ^ 2).tmod p
            let b2 := (b1 * t).tmod p
            let b3 := modCore (b2 - 1) p
            let b4 := (b3 * x1).tmod p
            let b5 := (b4 * a).tmod p
            Except.ok b5
        else
          let s := p - 1
          let e := zeroBits s
          let s2 := Int.shiftRight s e
          match findNonResidue p p.natAbs 2 with
          | Except.error e2 => Except.error e2
          | Except.ok n =>
            match powm x1 (Int.shiftRight (s2 + 1) 1) p with
            | Except.error e2 => Except.error e2
            | Except.ok y0 =>
              match powm x1 s2 p with
              | Except.error e2 => Except.error e2
              | Except.ok b0 =>
                match powm n s2 p with
                | Except.error e2 => Except.error e2
                | Except.ok g0 => tsLoop p (e + 1) y0 b0 g0 e

/-! ### Definitions: integer square root and perfect-square test -/

/-- The Newton iteration of `function sqrt(x)`: `z = ((x / r) + r) >> 1`,
stopping as soon as `z >= r`.  On reachable states `r` is positive; the
non-positive guard only serves the termination measure. -/
def sqrtLoop (x r : Int) : Int :=
  if hr : r ≤ 0 then r
  else
    let z := Int.shiftRight (x.tdiv r + r) 1
    if r ≤ z then r else sqrtLoop x z
termination_by r.toNat
decreasing_by
  rename_i hz
  omega

/-- `function sqrt(x)`: floor square root, throwing on negative input. -/
def sqrt (x : Int) : Except String Int :=
  if x < 0 then Except.error "Assertion failed."
  else if x ≤ 1 then Except.ok x
  else Except.ok (sqrtLoop x (jsShl 1 ((bitLength x >>> 1) + 1)))

/-- `function isSquare(n)`. -/
def isSquare (n : Int) : Bool :=
  if n < 0 then false
  else
    match sqrt n with
    | Except.error _ => false
    | Except.ok r => r ^ 2 == n

/-! ### Definitions: strong Lucas pseudoprime test -/

/-- `s & (1n << i)` for the (non-negative) odd part `s` of `n + 1`. -/
def bitSet (s : Int) (i : Nat) : Bool := s.natAbs.testBit i

/-- Outcome of the Lucas parameter search: either an early verdict or
the parameter `P` with `jacobi(P^2 - 4, n) = -1`. -/
inductive LucasOutcome where
  | decided (b : Bool)
  | found (p : Int)
deriving DecidableEq

/-- The parameter scan of `function isPrimeLucas(n, limit)`: `p` runs
upward from 3; `p > 10000` throws, a positive `limit` turns the scan
into a "not proven prime" verdict, `jacobi = -1` succeeds, `jacobi = 0`
decides `n === p + 2`, and at `p = 40` a perfect square is rejected. -/
def lucasSearchLoop (n : Int) (limit : Nat) (p : Int) : Except String LucasOutcome :=
  if h1 : 10000 < p then Except.error "Cannot find jacobi = -1."
  else if 0 < limit ∧ (limit : Int) < p then Except.ok (LucasOutcome.decided false)
  else
    match jacobi (p * p - 4) n with
    | Except.error e => Except.error e
    | Except.ok j =>
      if j = -1 then Except.ok (LucasOutcome.found p)
      else if j = 0 then Except.ok (LucasOutcome.decided (n == p + 2))
      else if p = 40 ∧ isSquare n then Except.ok (LucasOutcome.decided false)
      else lucasSearchLoop n limit (p + 1)
termination_by (10001 - p).toNat
decreasing_by omega

/-- The binary Lucas-chain loop of `isPrimeLucas`: bit `i` of `s` runs
from `bitLength s` down to `0`; the counter argument is `i + 1`.  The
source reduces with `mod(..., n)` and `n` is odd and at least 3 on every
reachable state, so `modCore` is its exact value. -/
def lucasBitsLoop (n p nm2 s : Int) : Nat → Int × Int → Int × Int
  | 0, xy => xy
  | cnt + 1, (x, y) =>
    if bitSet s cnt then
      lucasBitsLoop n p nm2 s cnt
        (modCore (x * y + n - p) n, modCore (y ^ 2 + nm2) n)
    else
      lucasBitsLoop n p nm2 s cnt
        (modCore (x ^ 2 + nm2) n, modCore (y * x + n - p) n)

/-- The trailing `for (let t = 0; t < r - 1; t++)` doubling loop of
`isPrimeLucas`; `some b` is an early return, `none` falls through. -/
def lucasDoubleLoop (n : Int) : Nat → Int → Option Bool
  | 0, _ => none
  | cnt + 1, x =>
    if x = 0 then some true
    else if x = 2 then some false
    else lucasDoubleLoop n cnt (modCore (x ^ 2 - 2) n)

/-- `function isPrimeLucas(n, limit = 0)` (the `limit >>> 0` coercion is
modelled by taking `limit : Nat`). -/
def isPrimeLucas (n : Int) (limit : Nat) : Except String Bool :=
  if n ≤ 1 then Except.ok false
  else if Int.land n 1 = 0 then Except.ok (n == 2)
  else
    match lucasSearchLoop n limit 3 with
    | Except.error e => Except.error e
    | Except.ok (LucasOutcome.decided b) => Except.ok b
    | Except.ok (LucasOutcome.found p) =>
      let s := n + 1
      let r := zeroBits s
      let nm2 := n - 2
      let s2 := Int.shiftRight s r
      let xy := lucasBitsLoop n p nm2 s2 (bitLength s2 + 1) (2, p)
      let x := xy.1
      let y := xy.2
      let afterChain : Option Bool :=
        if x = 2 ∨ x = nm2 then
          let a := x * p
          let b := jsShl y 1
          let a2 := if a < b then b else a
          let b2 := if a < b then a else b
          if (a2 - b2).tmod n = 0 then some true else none
        else none
      match afterChain with
      | some bres => Except.ok bres
      | none =>
        match lucasDoubleLoop n (r - 1) x with
        | some bres => Except.ok bres
        | none => Except.ok false

/-! ### Definitions: byte serialization -/

/-- Endianness selector of the serialization API. -/
inductive Endian where
  | be
  | le
deriving DecidableEq

/-- Little-endian base-256 digits of `m`, padded/truncated to `size`
entries (the source materializes exactly `size` bytes). -/
def leBytes : Nat → Nat → List Nat
  | 0, _ => []
  | size + 1, m => m % 256 :: leBytes size (m / 256)

/-- Number of hex digits `abs(n).toString(16)` produces: one digit for
zero, otherwise `ceil(bits / 4)`. -/
def hexLen (x : Int) : Nat := max 1 ((bitLenNat x.natAbs + 3) / 4)

/-- `function toBuffer(n, endian, length)`: serializes `abs(n)` through
its zero-padded hex string (modelled directly as base-256 digits), into
`length` bytes (or the minimal non-empty size when `length` is 0/null),
throwing when the magnitude does not fit.  Big-endian output is reversed
for little-endian mode. -/
def toBuffer (n : Int) (endian : Endian) (length : Nat) : Except String (List Nat) :=
  let bytes := (hexLen n + 1) / 2
  let size := if length = 0 then max 1 bytes else length
  if size < bytes then Except.error "Byte array longer than desired length."
  else
    let out := (leBytes size n.natAbs).reverse
    Except.ok (if endian = Endian.le then out.reverse else out)

/-- `function toArrayLike(n, ArrayType, endian, length)`: same sizing
logic but via `byteLength`, writing base-256 digits directly. -/
def toArrayLike (n : Int) (endian : Endian) (length : Nat) : Except String (List Nat) :=
  let bytes := byteLength n
  let size := if length = 0 then max 1 bytes else length
  if size < bytes then Except.error "Byte array longer than desired length."
  else
    Except.ok (match endian with
      | Endian.be => (leBytes size n.natAbs).reverse
      | Endian.le => leBytes size n.natAbs)

/-- `function fromBuffer(data, endian)`: folds the bytes as base-256
digits (the source's 64-bit chunking is an optimization with the same
value). -/
def fromBuffer (data : List Nat) (endian : Endian) : Int :=
  match endian with
  | Endian.be => data.foldl (fun acc b => acc * 256 + (b : Int)) 0
  | Endian.le => data.foldr (fun b acc => acc * 256 + (b : Int)) 0

/-! ### Definitions: raw BN methods -/

namespace BN

/-- `BN.prototype.ipow(num)`: `this.n **= abs(num.n)` — the exponent's
magnitude is used; nothing is rejected. -/
def ipow (x num : Int) : Int := x ^ num.natAbs

/-- `BN.prototype.pow(num) = this.clone().ipow(num)`. -/
def pow (x num : Int) : Int := BN.ipow x num

/-- `BN.prototype.ixor(num)`: two's-complement signed xor. -/
def ixor (x num : Int) : Int := Int.xor x num

/-- `BN.prototype.iuand(num)` delegates to the unsigned helper. -/
def iuand (x num : Int) : Int := Bcrypto.uand x num

/-- `BN.prototype.uand(num) = this.clone().iuand(num)`. -/
def uand (x num : Int) : Int := BN.iuand x num

/-- `BN.prototype.iuor(num)` delegates to the unsigned helper. -/
def iuor (x num : Int) : Int := Bcrypto.uor x num

/-- `BN.prototype.uor(num) = this.clone().iuor(num)`. -/
def uor (x num : Int) : Int := BN.iuor x num

/-- `BN.prototype.iuxor(num)` delegates to the unsigned helper. -/
def iuxor (x num : Int) : Int := Bcrypto.uxor x num

/-- `BN.prototype.uxor(num)`: the source reads
`return this.clone().ixor(num);` — the signed xor, not `iuxor`. -/
def uxor (x num : Int) : Int := BN.ixor x num

/-- `BN.prototype.iushr(num)` delegates to the unsigned helper. -/
def iushr (x num : Int) : Int := Bcrypto.ushr x num

/-- `BN.prototype.ushr(num) = this.clone().iushr(num)`. -/
def ushr (x num : Int) : Int := BN.iushr x num

end BN

/-! ### Definitions: reduction contexts -/

/-- A reduction context (`class Red`): the modulus plus a nominal `uid`
modelling JavaScript object identity — two separately constructed
contexts carry distinct `uid`s even when their moduli are equal, and
`a.red === b.red` is `uid` equality. -/
structure Red where
  uid : Nat
  m : Int
deriving DecidableEq

/-- A BN value: the integer plus the optional ring tag (`this.red`). -/
structure BNR where
  n : Int
  red : Option Red
deriving DecidableEq

/-- `a.red && a.red === b.red`: both tagged, to the identical context
instance. -/
def sameRed : Option Red → Option Red → Bool
  | some ra, some rb => ra.uid == rb.uid
  | _, _ => false

/-- `this.red` is set. -/
def isRed : Option Red → Bool
  | some _ => true
  | none => false

/-- `Red.prototype._verify1(a)`: non-negative and tagged. -/
def verify1 (a : BNR) : Except String Unit :=
  if a.n < 0 then Except.error "red only works with positive numbers."
  else if isRed a.red then Except.ok ()
  else Except.error "red only works with red numbers."

/-- `Red.prototype._verify2(a, b)`: both non-negative, both tagged to
the identical context instance. -/
def verify2 (a b : BNR) : Except String Unit :=
  if a.n < 0 ∨ b.n < 0 then Except.error "red only works with positive numbers."
  else if sameRed a.red b.red then Except.ok ()
  else Except.error "red only works with red numbers."

namespace Red

/-- `Red.prototype.ineg(a)`. -/
def ineg (ctx : Red) (a : BNR) : Except String BNR :=
  match verify1 a with
  | Except.error e => Except.error e
  | Except.ok _ =>
    Except.ok { n := if a.n ≠ 0 then ctx.m - a.n else a.n, red := a.red }

/-- `Red.prototype.neg(a) = this.ineg(a.clone())`. -/
def neg (ctx : Red) (a : BNR) : Except String BNR := Red.ineg ctx a

/-- `Red.prototype.iadd(a, b)`: one conditional subtraction. -/
def iadd (ctx : Red) (a b : BNR) : Except String BNR :=
  match verify2 a b with
  | Except.error e => Except.error e
  | Except.ok _ =>
    let n1 := a.n + b.n
    Except.ok { n := if ctx.m ≤ n1 then n1 - ctx.m else n1, red := a.red }

/-- `Red.prototype.add(a, b) = this.iadd(a.clone(), b)`. -/
def add (ctx : Red) (a b : BNR) : Except String BNR := Red.iadd ctx a b

/-- `Red.prototype.isub(a, b)`: one conditional addition. -/
def isub (ctx : Red) (a b : BNR) : Except String BNR :=
  match verify2 a b with
  | Except.error e => Except.error e
  | Except.ok _ =>
    let n1 := a.n - b.n
    Except.ok { n := if n1 < 0 then n1 + ctx.m else n1, red := a.red }

/-- `Red.prototype.sub(a, b) = this.isub(a.clone(), b)`. -/
def sub (ctx : Red) (a b : BNR) : Except String BNR := Red.isub ctx a b

/-- `Red.prototype.ishln(a, num)`: shift then `%= m` (the operand is a
canonical residue, hence non-negative, so the truncating `%` is the
reduction). -/
def ishln (ctx : Red) (a : BNR) (num : Int) : Except String BNR :=
  match verify1 a with
  | Except.error e => Except.error e
  | Except.ok _ => Except.ok { n := (jsShl a.n num).tmod ctx.m, red := a.red }

/-- `Red.prototype.shln(a, num)`. -/
def shln (ctx : Red) (a : BNR) (num : Int) : Except String BNR :=
  Red.ishln ctx a num

/-- `Red.prototype.imul(a, b)`. -/
def imul (ctx : Red) (a b : BNR) : Except String BNR :=
  match verify2 a b with
  | Except.error e => Except.error e
  | Except.ok _ => Except.ok { n := (a.n * b.n).tmod ctx.m, red := a.red }

/-- `Red.prototype.mul(a, b)` (it verifies, then delegates to `imul` on
a clone). -/
def mul (ctx : Red) (a b : BNR) : Except String BNR :=
  match verify2 a b with
  | Except.error e => Except.error e
  | Except.ok _ => Red.imul ctx a b

/-- `Red.prototype.isqr(a)`. -/
def isqr (ctx : Red) (a : BNR) : Except String BNR :=
  match verify1 a with
  | Except.error e => Except.error e
  | Except.ok _ => Except.ok { n := (a.n ^ 2).tmod ctx.m, red := a.red }

/-- `Red.prototype.sqr(a)`. -/
def sqr (ctx : Red) (a : BNR) : Except String BNR := Red.isqr ctx a

/-- `Red.prototype.isqrt(a)`. -/
def isqrt (ctx : Red) (a : BNR) : Except String BNR :=
  match verify1 a with
  | Except.error e => Except.error e
  | Except.ok _ =>
    match sqrtm a.n ctx.m with
    | Except.error e => Except.error e
    | Except.ok v => Except.ok { n := v, red := a.red }

/-- `Red.prototype.sqrt(a)`. -/
def sqrt (ctx : Red) (a : BNR) : Except String BNR := Red.isqrt ctx a

/-- `Red.prototype.iinvert(a)`. -/
def iinvert (ctx : Red) (a : BNR) : Except String BNR :=
  match verify1 a with
  | Except.error e => Except.error e
  | Except.ok _ =>
    match Bcrypto.invert a.n ctx.m with
    | Except.error e => Except.error e
    | Except.ok v => Except.ok { n := v, red := a.red }

/-- `Red.prototype.invert(a)`. -/
def invert (ctx : Red) (a : BNR) : Except String BNR := Red.iinvert ctx a

/-- `Red.prototype.ifermat(a)`. -/
def ifermat (ctx : Red) (a : BNR) : Except String BNR :=
  match verify1 a with
  | Except.error e => Except.error e
  | Except.ok _ =>
    match Bcrypto.fermat a.n ctx.m with
    | Except.error e => Except.error e
    | Except.ok v => Except.ok { n := v, red := a.red }

/-- `Red.prototype.fermat(a)`. -/
def fermat (ctx : Red) (a : BNR) : Except String BNR := Red.ifermat ctx a

/-- `Red.prototype.ipow(a, num)`. -/
def ipow (ctx : Red) (a : BNR) (num : Int) : Except String BNR :=
  match verify1 a with
  | Except.error e => Except.error e
  | Except.ok _ =>
    match powm a.n num ctx.m with
    | Except.error e => Except.error e
    | Except.ok v => Except.ok { n := v, red := a.red }

/-- `Red.prototype.pow(a, num)`. -/
def pow (ctx : Red) (a : BNR) (num : Int) : Except String BNR :=
  Red.ipow ctx a num

/-- `Red.prototype.convertTo(num)`: the canonical representative, tagged. -/
def convertTo (ctx : Red) (num : Int) : BNR :=
  { n := modCore num ctx.m, red := some ctx }

/-- `Red.prototype.convertFrom(num)`: drop the tag. -/
def convertFrom (num : BNR) : BNR := { n := num.n, red := none }

end Red

namespace BN

/-- `BN.prototype.toRed(ctx)`: fails when already tagged, otherwise
reduces into the ring. -/
def toRed (x : BNR) (ctx : Red) : Except String BNR :=
  if isRed x.red then Except.error "Already in reduction context."
  else Except.ok (Red.convertTo ctx x.n)

/-- `BN.prototype.fromRed()`. -/
def fromRed (x : BNR) : Except String BNR :=
  match x.red with
  | none => Except.error "fromRed only works with red numbers."
  | some _ => Except.ok (Red.convertFrom x)

/-- `BN.prototype.redAdd(num)`. -/
def redAdd (a b : BNR) : Except String BNR :=
  match a.red with
  | none => Except.error "redAdd only works with red numbers."
  | some ctx => Red.add ctx a b

/-- `BN.prototype.redSub(num)`. -/
def redSub (a b : BNR) : Except String BNR :=
  match a.red with
  | none => Except.error "redSub only works with red numbers."
  | some ctx => Red.sub ctx a b

/-- `BN.prototype.redNeg()`. -/
def redNeg (a : BNR) : Except String BNR :=
  match a.red with
  | none => Except.error "redNeg only works with red numbers."
  | some ctx => Red.neg ctx a

/-- `BN.prototype.redShln(num)`. -/
def redShln (a : BNR) (num : Int) : Except String BNR :=
  match a.red with
  | none => Except.error "redShln only works with red numbers."
  | some ctx => Red.shln ctx a num

/-- `BN.prototype.redMul(num)`. -/
def redMul (a b : BNR) : Except String BNR :=
  match a.red with
  | none => Except.error "redMul only works with red numbers."
  | some ctx => Red.mul ctx a b

/-- `BN.prototype.redSqr()`. -/
def redSqr (a : BNR) : Except String BNR :=
  match a.red with
  | none => Except.error "redSqr only works with red numbers."
  | some ctx => Red.sqr ctx a

/-- `BN.prototype.redSqrt()`. -/
def redSqrt (a : BNR) : Except String BNR :=
  match a.red with
  | none => Except.error "redSqrt only works with red numbers."
  | some ctx => Red.sqrt ctx a

/-- `BN.prototype.redInvert()`. -/
def redInvert (a : BNR) : Except String BNR :=
  match a.red with
  | none => Except.error "redInvert only works with red numbers."
  | some ctx => Red.invert ctx a

/-- `BN.prototype.redFermat()`. -/
def redFermat (a : BNR) : Except String BNR :=
  match a.red with
  | none => Except.error "redFermat only works with red numbers."
  | some ctx => Red.fermat ctx a

/-- `BN.prototype.redPow(num)` (the exponent must be untagged; that
type-level check is met by construction here since the exponent is a
plain integer). -/
def redPow (a : BNR) (num : Int) : Except String BNR :=
  match a.red with
  | none => Except.error "redPow only works with red numbers."
  | some ctx => Red.pow ctx a num

end BN

/-! ### Properties of the Euclidean modulo -/

theorem modCore_eq_ite (x y : Int) :
    modCore x y = if x.tmod y < 0 then
      (if y < 0 then x.tmod y - y else x.tmod y + y) else x.tmod y := rfl

theorem modCore_nonneg (x : Int) {y : Int} (hy : y ≠ 0) : 0 ≤ modCore x y := by
  have habs := natAbs_tmod_lt x hy
  rw [modCore_eq_ite]
  by_cases h1 : x.tmod y < 0
  · rw [if_pos h1]
    by_cases h2 : y < 0
    · rw [if_pos h2]; omega
    · rw [if_neg h2]; omega
  · rw [if_neg h1]; omega

theorem modCore_lt (x : Int) {y : Int} (hy : 0 < y) : modCore x y < y := by
  have habs := natAbs_tmod_lt x (ne_of_gt hy)
  rw [modCore_eq_ite]
  by_cases h1 : x.tmod y < 0
  · rw [if_pos h1, if_neg (not_lt.mpr hy.le)]; omega
  · rw [if_neg h1]; omega

/-- `modCore` differs from the truncating remainder by a multiple of `y`,
hence from `x` by a multiple of `y`. -/
theorem modCore_emod (x y : Int) : modCore x y % y = x % y := by
  have h := Int.tmod_def x y
  rw [modCore_eq_ite]
  by_cases h1 : x.tmod y < 0
  · rw [if_pos h1]
    by_cases h2 : y < 0
    · rw [if_pos h2]
      have e : x.tmod y - y = x + y * (-(x.tdiv y) - 1) := by rw [h]; ring
      rw [e, Int.add_mul_emod_self_left]
    · rw [if_neg h2]
      have e : x.tmod y + y = x + y * (-(x.tdiv y) + 1) := by rw [h]; ring
      rw [e, Int.add_mul_emod_self_left]
  · rw [if_neg h1]
    have e : x.tmod y = x + y * (-(x.tdiv y)) := by rw [h]; ring
    rw [e, Int.add_mul_emod_self_left]

/-- For a positive modulus the source's Euclidean modulo agrees with
Lean's `Int.emod`. -/
theorem modCore_eq_emod (x : Int) {y : Int} (hy : 0 < y) :
    modCore x y = x % y := by
  have h1 : modCore x y % y = x % y := modCore_emod x y
  rwa [Int.emod_eq_of_lt (modCore_nonneg x (ne_of_gt hy)) (modCore_lt x hy)] at h1

/-! ### C2: the Euclidean division law -/

/-- C2: for non-negative `a` and positive `b`, `div` and `mod` satisfy
the Euclidean division law `a = (a div b) * b + (a mod b)` with
`0 ≤ a mod b < b`. -/
theorem div_mod_euclidean (a b q r : Int) (ha : 0 ≤ a) (hb : 0 < b)
    (hq : div a b = Except.ok q) (hr : mod a b = Except.ok r) :
    a = q * b + r ∧ 0 ≤ r ∧ r < b := by
  have hbne : b ≠ 0 := ne_of_gt hb
  unfold div at hq
  unfold mod at hr
  rw [if_neg hbne] at hq hr
  have h1 : (if a ≥ 0 then a.tdiv b else
      if a - a.tdiv b * b < 0 then (if b < 0 then a.tdiv b + 1 else a.tdiv b - 1)
      else a.tdiv b) = q := Except.ok.inj hq
  rw [if_pos (show a ≥ 0 from ha)] at h1
  have hq2 : q = a.tdiv b := h1.symm
  have hr2 : r = modCore a b := (Except.ok.inj hr).symm
  have hrm : modCore a b = a.tmod b := by
    rw [modCore_eq_ite, if_neg (not_lt.mpr (Int.tmod_nonneg b ha))]
  refine ⟨?_, ?_, ?_⟩
  · rw [hq2, hr2, hrm, Int.mul_comm]
    have := Int.tdiv_add_tmod a b
    omega
  · rw [hr2, hrm]
    exact Int.tmod_nonneg b ha
  · rw [hr2, hrm]
    exact Int.tmod_lt_of_pos a hb

/-- Witness for `div_mod_euclidean` at `a = 7`, `b = 3`. -/
theorem div_mod_euclidean_witness :
    (7 : Int) = 2 * 3 + 1 ∧ (0 : Int) ≤ 1 ∧ (1 : Int) < 3 :=
  div_mod_euclidean 7 3 2 1 (by decide) (by decide) (by rfl) (by rfl)

/-! ### C6: extended gcd -/

theorem egcdLoop_spec (x0 y0 : Int) : ∀ (n : Nat) (a b os s ot t : Int),
    b.natAbs ≤ n → 0 ≤ a → 0 ≤ b →
    os * x0 + ot * y0 = a → s * x0 + t * y0 = b →
    (egcdLoop a b os s ot t).1 * x0 + (egcdLoop a b os s ot t).2.1 * y0 =
        (egcdLoop a b os s ot t).2.2 ∧
      (egcdLoop a b os s ot t).2.2 = (Nat.gcd b.natAbs a.natAbs : Int) := by
  intro n
  induction n with
  | zero =>
    intro a b os s ot t hn ha hb h1 h2
    have hb0 : b = 0 := by omega
    subst hb0
    rw [egcdLoop]
    simp only [dif_pos rfl]
    refine ⟨h1, ?_⟩
    simp [Int.natAbs_of_nonneg ha]
  | succ n ih =>
    intro a b os s ot t hn ha hb h1 h2
    by_cases hb0 : b = 0
    · subst hb0
      rw [egcdLoop]
      simp only [dif_pos rfl]
      refine ⟨h1, ?_⟩
      simp [Int.natAbs_of_nonneg ha]
    · rw [egcdLoop]
      simp only [dif_neg hb0]
      have htm : a - a.tdiv b * b = a.tmod b := by
        rw [Int.mul_comm, ← Int.tmod_def]
      have hlt : (a - a.tdiv b * b).natAbs < b.natAbs := by
        rw [htm]; exact natAbs_tmod_lt a hb0
      have hnn : 0 ≤ a - a.tdiv b * b := by
        rw [htm]; exact Int.tmod_nonneg b ha
      have hres := ih b (a - a.tdiv b * b) s (os - a.tdiv b * s) t (ot - a.tdiv b * t)
        (by omega) hb hnn h2 (by rw [sub_mul, sub_mul]; rw [← h1, ← h2]; ring)
      refine ⟨hres.1, ?_⟩
      rw [hres.2]
      congr 1
      have e1 : (a - a.tdiv b * b).natAbs = a.natAbs % b.natAbs := by
        rw [htm, natAbs_tmod]
      rw [e1]
      exact (Nat.gcd_rec _ _).symm

/-- C6: `egcd(a, b)` returns `(x, y, g)` with `a*x + b*y = g` and `g` the
non-negative gcd of the magnitudes. -/
theorem egcd_bezout (a b : Int) :
    a * (egcd a b).1 + b * (egcd a b).2.1 = (egcd a b).2.2 ∧
    (egcd a b).2.2 = (Int.gcd a b : Int) ∧ 0 ≤ (egcd a b).2.2 := by
  have h := egcdLoop_spec (a.natAbs : Int) (b.natAbs : Int)
    b.natAbs (a.natAbs : Int) (b.natAbs : Int) 1 0 0 1
    (by omega) (by positivity) (by positivity) (by ring) (by ring)
  unfold egcd
  set r0 := egcdLoop (a.natAbs : Int) (b.natAbs : Int) 1 0 0 1 with hr0
  obtain ⟨hbez, hgcd⟩ := h
  have hgnn : 0 ≤ r0.2.2 := by rw [hgcd]; positivity
  have hneg : ¬ r0.2.2 < 0 := not_lt.mpr hgnn
  simp only [if_neg hneg]
  have hga : (Nat.gcd ((b.natAbs : Int)).natAbs ((a.natAbs : Int)).natAbs : Int)
      = (Int.gcd a b : Int) := by
    simp [Int.gcd, Nat.gcd_comm, Int.natAbs_abs]
  refine ⟨?_, ?_, hgnn⟩
  · have ea : ((a.natAbs : Int)) = if a < 0 then -a else a := by
      split <;> omega
    have eb : ((b.natAbs : Int)) = if b < 0 then -b else b := by
      split <;> omega
    rw [ea, eb] at hbez
    by_cases hx : a < 0 <;> by_cases hy : b < 0 <;>
      simp only [hx, hy, if_true, if_false, ite_true, ite_false] at hbez ⊢ <;>
      linear_combination hbez
  · rw [hgcd, hga]

/-! ### C4: raw exponentiation and negative exponents -/

/-- C4, counterexample to the claim as stated: the raw `ipow`/`pow` do
not reject a negative exponent; at `x = 2`, `e = -3` they return `8`
(the exponent's absolute value is used). -/
theorem ipow_accepts_negative_exponent : BN.ipow 2 (-3) = 8 ∧ BN.pow 2 (-3) = 8 := by
  constructor <;> decide

/-- C4 (amended): for a negative exponent `e`, `pow`/`ipow` raise the
base to `abs(e)` — `pow(x, e) = x ^ |e| = pow(x, -e)` — instead of
rejecting it. -/
theorem pow_uses_exponent_magnitude (x e : Int) (he : e < 0) :
    BN.pow x e = x ^ (-e).toNat ∧ BN.pow x e = BN.pow x (-e) ∧
      BN.ipow x e = x ^ (-e).toNat := by
  unfold BN.pow BN.ipow
  have h1 : e.natAbs = (-e).toNat := by omega
  have h2 : e.natAbs = (-e).natAbs := by omega
  refine ⟨by rw [h1], by rw [h2], by rw [h1]⟩

/-- Witness for `pow_uses_exponent_magnitude` at `x = 2`, `e = -3`. -/
theorem pow_uses_exponent_magnitude_witness :
    BN.pow 2 (-3) = (2 : Int) ^ ((-(-3) : Int)).toNat ∧
      BN.pow 2 (-3) = BN.pow 2 (-(-3)) ∧
      BN.ipow 2 (-3) = (2 : Int) ^ ((-(-3) : Int)).toNat :=
  pow_uses_exponent_magnitude 2 (-3) (by decide)

/-! ### C5: the pure `uxor` uses the signed xor -/

/-- C5: at `x = -2`, `y = 1` the pure `uxor` method returns the signed
two's-complement xor `-1`, whereas the unsigned (sign-magnitude)
semantics — implemented by the helper and by the in-place `iuxor`, and
claimed by the spec — gives `sign(x) * (abs(x) xor abs(y)) = -3`.  The
sibling unsigned methods agree with their in-place forms; `uxor` alone
delegates to the signed `ixor`. -/
theorem uxor_pure_uses_signed_xor :
    BN.uxor (-2) 1 = -1 ∧
      Bcrypto.uxor (-2) 1 = -3 ∧
      BN.iuxor (-2) 1 = -3 ∧
      BN.uand (-2) 1 = BN.iuand (-2) 1 ∧
      BN.uor (-2) 1 = BN.iuor (-2) 1 ∧
      BN.ushr (-2) 1 = BN.iushr (-2) 1 := by
  refine ⟨by decide, by decide, by decide, by decide, by decide, by decide⟩

/-! ### C7: binary red operations reject mismatched contexts -/

/-- C7: `redAdd` on values tagged to two distinct context instances
(distinct `uid`s, moduli possibly equal) throws. -/
theorem redAdd_distinct_contexts (A B : Red) (u v : Int) (h : A.uid ≠ B.uid) :
    isErr (BN.redAdd { n := u, red := some A } { n := v, red := some B }) = true := by
  unfold BN.redAdd Red.add Red.iadd verify2 sameRed
  simp only
  by_cases hn : u < 0 ∨ v < 0
  · rw [if_pos hn]
    rfl
  · rw [if_neg hn]
    have hfalse : (A.uid == B.uid) = false := by
      simp [h]
    simp [hfalse, isErr]

/-- Witness for `redAdd_distinct_contexts`: two contexts with the equal
modulus `7` but distinct identities. -/
theorem redAdd_distinct_contexts_witness :
    isErr (BN.redAdd { n := 2, red := some { uid := 0, m := 7 } }
      { n := 3, red := some { uid := 1, m := 7 } }) = true :=
  redAdd_distinct_contexts { uid := 0, m := 7 } { uid := 1, m := 7 } 2 3 (by decide)

/-! ### C1: the modular inverse -/

theorem gcd_eq_of_dvd_sub {a b m : Int} (h : m ∣ (a - b)) :
    Int.gcd a m = Int.gcd b m := by
  have hd : ∀ u v : Int, m ∣ (u - v) → (Int.gcd u m : Int) ∣ (Int.gcd v m : Int) := by
    intro u v huv
    have h1 : (Int.gcd u m : Int) ∣ u := Int.gcd_dvd_left
    have h2 : (Int.gcd u m : Int) ∣ m := Int.gcd_dvd_right
    have h3 : (Int.gcd u m : Int) ∣ (u - v) := dvd_trans h2 huv
    have h4 : (Int.gcd u m : Int) ∣ v := by
      have := dvd_sub h1 h3
      simpa using this
    exact Int.dvd_gcd h4 h2
  have hba : m ∣ (b - a) := by
    have := dvd_neg.mpr h
    simpa using this
  have g1 := hd a b h
  have g2 := hd b a hba
  exact_mod_cast dvd_antisymm (by exact_mod_cast g1) (by exact_mod_cast g2)

theorem invertLoop_spec (y x1 : Int) : ∀ (n : Nat) (t nt r nr : Int),
    nr.natAbs ≤ n → 0 ≤ nr → nr < r →
    r * (nt.natAbs : Int) + nr * (t.natAbs : Int) ≤ y →
    (t.natAbs : Int) ≤ y →
    r ≡ t * x1 [ZMOD y] → nr ≡ nt * x1 [ZMOD y] →
    1 ≤ (invertLoop t nt r nr).1 ∧
    (invertLoop t nt r nr).1 = (Nat.gcd nr.natAbs r.natAbs : Int) ∧
    (invertLoop t nt r nr).1 ≡ (invertLoop t nt r nr).2 * x1 [ZMOD y] ∧
    ((invertLoop t nt r nr).2.natAbs : Int) ≤ y := by
  intro n
  induction n with
  | zero =>
    intro t nt r nr hn h0 hlt hE ht hr hnr
    have h00 : nr = 0 := by omega
    subst h00
    have hstep : invertLoop t nt r 0 = (r, t) := by
      rw [invertLoop]
      rfl
    rw [hstep]
    refine ⟨by omega, ?_, hr, ht⟩
    simp [Int.natAbs_of_nonneg (by omega : (0:Int) ≤ r)]
  | succ n ih =>
    intro t nt r nr hn h0 hlt hE ht hr hnr
    by_cases h00 : nr = 0
    · subst h00
      have hstep : invertLoop t nt r 0 = (r, t) := by
        rw [invertLoop]
        rfl
      rw [hstep]
      refine ⟨by omega, ?_, hr, ht⟩
      simp [Int.natAbs_of_nonneg (by omega : (0:Int) ≤ r)]
    · rw [invertLoop]
      simp only [dif_neg h00]
      have hq0 : 0 ≤ r.tdiv nr := Int.tdiv_nonneg (by omega) (by omega)
      have htm : r - r.tdiv nr * nr = r.tmod nr := by
        rw [Int.mul_comm, ← Int.tmod_def]
      have hnewlt : (r - r.tdiv nr * nr).natAbs < nr.natAbs := by
        rw [htm]; exact natAbs_tmod_lt r h00
      have hnew0 : 0 ≤ r - r.tdiv nr * nr := by
        rw [htm]; exact Int.tmod_nonneg nr (by omega)
      have hnewlt2 : r - r.tdiv nr * nr < nr := by
        rw [htm]; exact Int.tmod_lt_of_pos r (by omega)
      have htri : ((t - r.tdiv nr * nt).natAbs : Int) ≤
          (t.natAbs : Int) + r.tdiv nr * (nt.natAbs : Int) := by
        have h1 := Int.natAbs_sub_le t (r.tdiv nr * nt)
        have h2 : (r.tdiv nr * nt).natAbs = (r.tdiv nr).natAbs * nt.natAbs :=
          Int.natAbs_mul _ nt
        have h3 : ((r.tdiv nr).natAbs : Int) = r.tdiv nr :=
          Int.natAbs_of_nonneg hq0
        calc ((t - r.tdiv nr * nt).natAbs : Int)
            ≤ ((t.natAbs + (r.tdiv nr * nt).natAbs : Nat) : Int) := by
              exact_mod_cast h1
          _ = (t.natAbs : Int) + (((r.tdiv nr).natAbs : Int)) * (nt.natAbs : Int) := by
              rw [h2]; push_cast; ring
          _ = (t.natAbs : Int) + r.tdiv nr * (nt.natAbs : Int) := by rw [h3]
      have hstep : nr * ((t - r.tdiv nr * nt).natAbs : Int) ≤
          nr * ((t.natAbs : Int) + r.tdiv nr * (nt.natAbs : Int)) :=
        mul_le_mul_of_nonneg_left htri h0
      have hEnew : nr * ((t - r.tdiv nr * nt).natAbs : Int) +
          (r - r.tdiv nr * nr) * ((nt.natAbs : Int)) ≤ y := by
        have e1 : nr * ((t.natAbs : Int) + r.tdiv nr * (nt.natAbs : Int)) +
            (r - r.tdiv nr * nr) * ((nt.natAbs : Int)) =
            r * ((nt.natAbs : Int)) + nr * ((t.natAbs : Int)) := by ring
        linarith [hstep, e1, hE]
      have hB : ((nt.natAbs : Int)) ≤ y := by
        have h5 : (0:Int) ≤ nr * (t.natAbs : Int) :=
          mul_nonneg h0 (by positivity)
        have h6 : (0:Int) ≤ (r - 1) * (nt.natAbs : Int) :=
          mul_nonneg (by omega) (by positivity)
        nlinarith [hE, h5, h6]
      have hr2 : r - r.tdiv nr * nr ≡ (t - r.tdiv nr * nt) * x1 [ZMOD y] := by
        have hc := Int.ModEq.sub hr (Int.ModEq.mul_left (r.tdiv nr) hnr)
        have e2 : t * x1 - r.tdiv nr * (nt * x1) = (t - r.tdiv nr * nt) * x1 := by
          ring
        rwa [e2] at hc
      have hres := ih nt (t - r.tdiv nr * nt) nr (r - r.tdiv nr * nr)
        (by omega) hnew0 hnewlt2 hEnew hB hnr hr2
      refine ⟨hres.1, ?_, hres.2.2.1, hres.2.2.2⟩
      rw [hres.2.1]
      congr 1
      have e3 : (r - r.tdiv nr * nr).natAbs = r.natAbs % nr.natAbs := by
        rw [htm, natAbs_tmod]
      rw [e3]
      exact (Nat.gcd_rec _ _).symm

/-- C1: for `m ≥ 1`, `invert(a, m)` throws "Not invertible." exactly
when `m = 1` or `gcd(a, m) ≠ 1`; otherwise it returns `t` with
`0 ≤ t < m` and `(a * t) mod m = 1`. -/
theorem invert_spec (a m t : Int) (hm : 1 ≤ m) :
    (isErr (invert a m) = true ↔ (m = 1 ∨ Int.gcd a m ≠ 1)) ∧
    (invert a m = Except.ok t → 0 ≤ t ∧ t < m ∧ mod (a * t) m = Except.ok 1) := by
  have hm0 : ¬ m ≤ 0 := by omega
  by_cases hm1 : m = 1
  · subst hm1
    constructor
    · simp [invert, isErr]
    · intro h
      rw [invert] at h
      simp at h
  · have hm2 : 2 ≤ m := by omega
    have hx1a : 0 ≤ (if a < 0 ∨ a ≥ m then modCore a m else a) ∧
        (if a < 0 ∨ a ≥ m then modCore a m else a) < m := by
      split
      · exact ⟨modCore_nonneg a (by omega), modCore_lt a (by omega)⟩
      · rename_i hcond
        push_neg at hcond
        omega
    have hx1mod : (if a < 0 ∨ a ≥ m then modCore a m else a) % m = a % m := by
      split
      · exact modCore_emod a m
      · rfl
    set x1 := if a < 0 ∨ a ≥ m then modCore a m else a with hx1def
    have hloop := invertLoop_spec m x1 x1.natAbs 0 1 m x1 le_rfl hx1a.1 hx1a.2
      (by simp) (by simp; omega)
      (by
        show m % m = (0 * x1) % m
        simp)
      (by
        show x1 % m = (1 * x1) % m
        simp)
    set res := invertLoop 0 1 m x1 with hresdef
    obtain ⟨hg1, hg2, hg3, hg4⟩ := hloop
    have hnneg : ¬ res.1 < 0 := by omega
    have hinv : invert a m =
        (if res.1 ≠ 1 then Except.error "Not invertible."
         else Except.ok (if res.2 < 0 then res.2 + m else res.2)) := by
      rw [invert, if_neg hm0, if_neg hm1]
      simp only [← hx1def, ← hresdef, if_neg hnneg]
    have hgcdeq : Int.gcd x1 m = Int.gcd a m := by
      apply gcd_eq_of_dvd_sub
      have hme : x1 ≡ a [ZMOD m] := hx1mod
      exact Int.ModEq.dvd (Int.ModEq.symm hme)
    have hres1 : res.1 = (Int.gcd a m : Int) := by
      rw [hg2, ← hgcdeq]
      rfl
    constructor
    · by_cases hone : res.1 = 1
      · rw [hinv, if_neg (by omega)]
        have h9 : (Int.gcd a m : Int) = 1 := by rw [← hres1]; exact hone
        have : Int.gcd a m = 1 := by exact_mod_cast h9
        simp [isErr, hm1, this]
      · rw [hinv, if_pos hone]
        have : Int.gcd a m ≠ 1 := by
          intro hc
          rw [hres1, hc] at hone
          exact hone rfl
        simp [isErr, this]
    · intro hok
      rw [hinv] at hok
      by_cases hone : res.1 = 1
      · rw [if_neg (by omega)] at hok
        have hteq : t = if res.2 < 0 then res.2 + m else res.2 :=
          (Except.ok.inj hok).symm
        have hcong : (1 : Int) ≡ res.2 * x1 [ZMOD m] := hone ▸ hg3
        have htcong : t ≡ res.2 [ZMOD m] := by
          rw [hteq]
          split
          · show (res.2 + m) % m = res.2 % m
            have e4 : res.2 + m = res.2 + m * 1 := by ring
            rw [e4, Int.add_mul_emod_self_left]
          · exact Int.ModEq.refl res.2
        have hacong : a ≡ x1 [ZMOD m] := (Int.ModEq.symm hx1mod)
        have hfinal : a * t ≡ 1 [ZMOD m] := by
          have h1 : a * t ≡ x1 * res.2 [ZMOD m] := Int.ModEq.mul hacong htcong
          have h2 : x1 * res.2 = res.2 * x1 := by ring
          rw [h2] at h1
          exact h1.trans hcong.symm
        have hne : ¬ ((1 : Int) ≡ 0 [ZMOD m]) := by
          intro hc
          have : (1 : Int) % m = 0 % m := hc
          rw [Int.emod_eq_of_lt (by omega) (by omega)] at this
          simp at this
        have hnotm : res.2 ≠ m := by
          intro hc
          apply hne
          have : res.2 * x1 ≡ 0 [ZMOD m] := by
            rw [hc]
            show (m * x1) % m = 0 % m
            simp [Int.mul_emod_right]
          exact hcong.trans this
        have habs : -m ≤ res.2 ∧ res.2 ≤ m := by omega
        refine ⟨?_, ?_, ?_⟩
        · rw [hteq]; split <;> omega
        · rw [hteq]; split <;> omega
        · rw [mod, if_neg (by omega)]
          congr 1
          rw [modCore_eq_emod _ (by omega : (0:Int) < m)]
          have : (a * t) % m = 1 % m := hfinal
          rw [this, Int.emod_eq_of_lt (by omega) (by omega)]
      · rw [if_pos hone] at hok
        cases hok

/-- Witness for `invert_spec` at `a = 3`, `m = 7` (inverse 5). -/
theorem invert_spec_witness :
    (isErr (invert 3 7) = true ↔ ((7 : Int) = 1 ∨ Int.gcd 3 7 ≠ 1)) ∧
    (invert 3 7 = Except.ok 5 → (0 : Int) ≤ 5 ∧ (5 : Int) < 7 ∧
      mod (3 * 5) 7 = Except.ok 1) :=
  invert_spec 3 7 5 (by decide)

/-! ### C10: serialization of zero and minimal output length -/

theorem leBytes_length (size m : Nat) : (leBytes size m).length = size := by
  induction size generalizing m with
  | zero => rfl
  | succ k ih => simp [leBytes, ih]

/-- C10: with no explicit length, `toBuffer` and `toArrayLike` always
produce at least one byte; zero serializes to the single byte `0x00` in
both endian modes, and `fromBuffer` reads that buffer back as zero. -/
theorem serialize_zero_single_byte (n : Int) (e : Endian) (l l2 : List Nat)
    (h : toBuffer n e 0 = Except.ok l)
    (h2 : toArrayLike n e 0 = Except.ok l2) :
    1 ≤ l.length ∧ 1 ≤ l2.length ∧
    toBuffer 0 Endian.be 0 = Except.ok [0] ∧
    toBuffer 0 Endian.le 0 = Except.ok [0] ∧
    toArrayLike 0 Endian.be 0 = Except.ok [0] ∧
    toArrayLike 0 Endian.le 0 = Except.ok [0] ∧
    fromBuffer [0] Endian.be = 0 ∧
    fromBuffer [0] Endian.le = 0 := by
  refine ⟨?_, ?_, ?_, ?_, ?_, ?_, rfl, rfl⟩
  · rw [toBuffer] at h
    by_cases hc : (if (0:Nat) = 0 then max 1 ((hexLen n + 1) / 2) else 0) < (hexLen n + 1) / 2
    · rw [if_pos hc] at h
      cases h
    · rw [if_neg hc] at h
      have hl : l = if e = Endian.le then ((leBytes (max 1 ((hexLen n + 1) / 2)) n.natAbs).reverse).reverse
          else (leBytes (max 1 ((hexLen n + 1) / 2)) n.natAbs).reverse :=
        (Except.ok.inj h).symm
      rw [hl]
      split <;> simp [leBytes_length]
  · rw [toArrayLike.eq_def] at h2
    by_cases hc : (if (0:Nat) = 0 then max 1 (byteLength n) else 0) < byteLength n
    · rw [if_pos hc] at h2
      cases h2
    · rw [if_neg hc] at h2
      have hl := (Except.ok.inj h2).symm
      rw [hl]
      cases e <;> simp [leBytes_length]
  · simp +decide [toBuffer, hexLen, bitLenNat, leBytes]
  · simp +decide [toBuffer, hexLen, bitLenNat, leBytes]
  · simp +decide [toArrayLike, byteLength, bitLenNat, leBytes]
  · simp +decide [toArrayLike, byteLength, bitLenNat, leBytes]

/-- Witness for `serialize_zero_single_byte` at `n = 5`, big-endian. -/
theorem serialize_zero_single_byte_witness :
    1 ≤ [(5 : Nat)].length ∧ 1 ≤ [(5 : Nat)].length ∧
    toBuffer 0 Endian.be 0 = Except.ok [0] ∧
    toBuffer 0 Endian.le 0 = Except.ok [0] ∧
    toArrayLike 0 Endian.be 0 = Except.ok [0] ∧
    toArrayLike 0 Endian.le 0 = Except.ok [0] ∧
    fromBuffer [0] Endian.be = 0 ∧
    fromBuffer [0] Endian.le = 0 :=
  serialize_zero_single_byte 5 Endian.be [5] [5]
    (by simp +decide [toBuffer, hexLen, bitLenNat, leBytes])
    (by simp +decide [toArrayLike, byteLength, bitLenNat, leBytes])

/-! ### C9: the Lucas parameter search limit -/

theorem land_one_of_odd {n : Int} (h0 : 0 < n) (h2 : n % 2 = 1) :
    Int.land n 1 = 1 := by
  cases n with
  | ofNat m =>
    have e1 : Int.land (Int.ofNat m) 1 = Int.ofNat (m &&& 1) := rfl
    have e2 : m &&& 1 = m % 2 := by
      have h := Nat.and_pow_two_sub_one_eq_mod m 1
      simpa using h
    have h2n : (m : Int) % 2 = 1 := h2
    have e3 : m % 2 = 1 := by omega
    rw [e1, e2, e3]
    rfl
  | negSucc m =>
    exact absurd (lt_trans h0 (Int.negSucc_lt_zero m)) (lt_irrefl 0)

theorem two_pow_zeroBitsNat_le : ∀ n : Nat, n ≠ 0 → 2 ^ zeroBitsNat n ≤ n := by
  intro n
  induction n using Nat.strong_induction_on with
  | _ n ih =>
    intro h0
    rw [zeroBitsNat]
    rw [dif_neg h0]
    by_cases hodd : n % 2 = 1
    · rw [if_pos hodd]
      have : (2:Nat) ^ 0 = 1 := pow_zero 2
      omega
    · rw [if_neg hodd]
      have hn2 : n / 2 ≠ 0 := by omega
      have hlt : n / 2 < n := Nat.div_lt_self (Nat.pos_of_ne_zero h0) one_lt_two
      have hih := ih (n / 2) hlt hn2
      have : 2 ^ (zeroBitsNat (n / 2) + 1) = 2 * 2 ^ zeroBitsNat (n / 2) := by ring
      omega

/-- The odd part extracted in the Jacobi loop is positive when its input
is. -/
theorem shiftRight_zeroBits_pos {a : Int} (ha : 0 < a) :
    0 < Int.shiftRight a (zeroBits a) := by
  cases a with
  | ofNat m =>
    have hm : m ≠ 0 := by
      intro hc
      subst hc
      exact absurd ha (by decide)
    have e1 : Int.shiftRight (Int.ofNat m) (zeroBits (Int.ofNat m)) =
        Int.ofNat (m >>> zeroBitsNat m) := rfl
    rw [e1]
    have h2 : 2 ^ zeroBitsNat m ≤ m := two_pow_zeroBitsNat_le m hm
    have h3 : 1 ≤ m >>> zeroBitsNat m := by
      rw [Nat.shiftRight_eq_div_pow]
      exact (Nat.one_le_div_iff (Nat.pos_of_ne_zero (by positivity))).mpr h2
    have h4 : 0 < m >>> zeroBitsNat m := h3
    simpa using h4
  | negSucc m =>
    exact absurd (lt_trans ha (Int.negSucc_lt_zero m)) (lt_irrefl 0)

theorem jacobiLoop_ok : ∀ (cnt : Nat) (a b j : Int),
    b.natAbs ≤ cnt → 0 ≤ a → 0 < b →
    ∃ jj, jacobiLoop a b j = Except.ok jj := by
  intro cnt
  induction cnt with
  | zero =>
    intro a b j hn ha hb
    omega
  | succ n ih =>
    intro a b j hn ha hb
    rw [jacobiLoop]
    by_cases hb1 : b = 1
    · rw [if_pos hb1]
      exact ⟨j, rfl⟩
    · rw [if_neg hb1]
      by_cases ha0 : a = 0
      · rw [if_pos ha0]
        exact ⟨0, rfl⟩
      · rw [if_neg ha0]
        rw [dif_neg (by omega : ¬ b = 0)]
        by_cases ha1 : a.tmod b = 0
        · simp only [if_pos ha1]
          exact ⟨0, rfl⟩
        · simp only [if_neg ha1]
          have htnn : 0 ≤ a.tmod b := Int.tmod_nonneg b ha
          have htpos : 0 < a.tmod b := by omega
          have hcpos : 0 < Int.shiftRight (a.tmod b) (zeroBits (a.tmod b)) :=
            shiftRight_zeroBits_pos htpos
          have hcle : (Int.shiftRight (a.tmod b) (zeroBits (a.tmod b))).natAbs ≤
              (a.tmod b).natAbs := natAbs_shiftRight_le _ _
          have hblt : (a.tmod b).natAbs < b.natAbs := natAbs_tmod_lt a (by omega)
          exact ih b _ _ (by omega) (by omega) hcpos

/-- For odd positive `y`, `jacobi(x, y)` returns a value. -/
theorem jacobi_ok (x : Int) {y : Int} (h0 : 0 < y) (h2 : y % 2 = 1) :
    ∃ j, jacobi x y = Except.ok j := by
  rw [jacobi]
  have hl : Int.land y 1 = 1 := land_one_of_odd h0 h2
  rw [if_neg (by simp [hl]; omega)]
  simp only [if_neg (not_lt.mpr h0.le)]
  have hcond : ¬ (y < 0 ∧ x < 0) := by omega
  simp only [if_neg hcond]
  by_cases hx : x < 0
  · rw [if_pos hx]
    exact jacobiLoop_ok y.natAbs _ y 1 le_rfl
      (modCore_nonneg x (by omega)) h0
  · rw [if_neg hx]
    exact jacobiLoop_ok y.natAbs x y 1 le_rfl (by omega) h0

theorem lucasSearchLoop_ok {n : Int} {limit : Nat}
    (hodd : n % 2 = 1) (hn : 2 < n) (hl0 : 0 < limit) (hl1 : limit ≤ 9999) :
    ∀ (cnt : Nat) (p : Int), (10001 - p).toNat ≤ cnt → 3 ≤ p → p ≤ 10000 →
    ∃ v, lucasSearchLoop n limit p = Except.ok v := by
  intro cnt
  induction cnt with
  | zero =>
    intro p hc h3 h10
    omega
  | succ k ih =>
    intro p hc h3 h10
    rw [lucasSearchLoop]
    rw [dif_neg (by omega : ¬ 10000 < p)]
    by_cases hlim : 0 < limit ∧ (limit : Int) < p
    · rw [if_pos hlim]
      exact ⟨LucasOutcome.decided false, rfl⟩
    · rw [if_neg hlim]
      obtain ⟨j, hj⟩ := jacobi_ok (p * p - 4) (by omega : (0:Int) < n) hodd
      rw [hj]
      dsimp only
      by_cases hj1 : j = -1
      · rw [if_pos hj1]
        exact ⟨LucasOutcome.found p, rfl⟩
      · rw [if_neg hj1]
        by_cases hj0 : j = 0
        · rw [if_pos hj0]
          exact ⟨LucasOutcome.decided (n == p + 2), rfl⟩
        · rw [if_neg hj0]
          by_cases h40 : p = 40 ∧ isSquare n
          · rw [if_pos h40]
            exact ⟨LucasOutcome.decided false, rfl⟩
          · rw [if_neg h40]
            have hple : p ≤ (limit : Int) := by
              by_contra hcc
              exact hlim ⟨hl0, by omega⟩
            exact ih (p + 1) (by omega) (by omega) (by omega)

/-- C9: for odd `n > 2` and `0 < limit < 10000`, `isPrimeLucas(n, limit)`
never raises — its parameter scan is bounded and any state past the
limit yields the verdict `false` ("not proven prime") rather than an
exception. -/
theorem isPrimeLucas_limit_guard (n : Int) (limit : Nat) (p : Int)
    (hodd : n % 2 = 1) (hn : 2 < n) (hl0 : 0 < limit) (hl1 : limit < 10000)
    (hp1 : (limit : Int) < p) (hp2 : p ≤ 10000) :
    isErr (isPrimeLucas n limit) = false ∧
    lucasSearchLoop n limit p = Except.ok (LucasOutcome.decided false) := by
  constructor
  · rw [isPrimeLucas]
    rw [if_neg (by omega : ¬ n ≤ 1)]
    have hl : Int.land n 1 = 1 := land_one_of_odd (by omega) hodd
    rw [if_neg (by simp [hl])]
    obtain ⟨v, hv⟩ := lucasSearchLoop_ok hodd hn hl0 (by omega) 9998 3
      (by omega) (by omega) (by omega)
    rw [hv]
    cases v with
    | decided b => rfl
    | found pf =>
      dsimp only
      split
      · rfl
      · split <;> rfl
  · rw [lucasSearchLoop]
    rw [dif_neg (by omega : ¬ 10000 < p)]
    rw [if_pos ⟨hl0, hp1⟩]

/-- Witness for `isPrimeLucas_limit_guard` at `n = 5`, `limit = 3`,
`p = 4`. -/
theorem isPrimeLucas_limit_guard_witness :
    isErr (isPrimeLucas 5 3) = false ∧
    lucasSearchLoop 5 3 4 = Except.ok (LucasOutcome.decided false) :=
  isPrimeLucas_limit_guard 5 3 4 (by decide) (by decide) (by decide) (by decide)
    (by decide) (by decide)

/-! ### C8: range preservation of the reduction layer -/

theorem shiftRight_nonneg {x : Int} (hx : 0 ≤ x) (s : Nat) :
    0 ≤ Int.shiftRight x s := by
  cases x with
  | ofNat n =>
    have e1 : Int.shiftRight (Int.ofNat n) s = Int.ofNat (n >>> s) := rfl
    rw [e1]
    exact Int.ofNat_nonneg _
  | negSucc n =>
    exact absurd (lt_of_lt_of_le (Int.negSucc_lt_zero n) hx) (lt_irrefl _)

theorem jsShl_nonneg {x : Int} (hx : 0 ≤ x) (k : Int) : 0 ≤ jsShl x k := by
  rw [jsShl]
  split
  · positivity
  · exact shiftRight_nonneg hx _

theorem tmod_range {a m : Int} (ha : 0 ≤ a) (hm : 0 < m) :
    0 ≤ a.tmod m ∧ a.tmod m < m :=
  ⟨Int.tmod_nonneg m ha, Int.tmod_lt_of_pos a hm⟩

theorem powmLoop_range {m : Int} (hm : 0 < m) : ∀ (cnt : Nat) (x y r : Int),
    y.toNat ≤ cnt → 0 ≤ x → x < m → 0 ≤ r → r < m →
    0 ≤ powmLoop m x y r ∧ powmLoop m x y r < m := by
  intro cnt
  induction cnt with
  | zero =>
    intro x y r hc hx0 hx1 hr0 hr1
    have hy : ¬ 0 < y := by omega
    rw [powmLoop, dif_neg hy]
    exact ⟨hr0, hr1⟩
  | succ k ih =>
    intro x y r hc hx0 hx1 hr0 hr1
    by_cases hy : 0 < y
    · rw [powmLoop, dif_pos hy]
      have hdec := shiftRight_toNat_lt hy
      have hx2 := tmod_range (by positivity : (0:Int) ≤ x ^ 2) hm
      have hr2 : 0 ≤ (if y.tmod 2 = 1 then (r * x).tmod m else r) ∧
          (if y.tmod 2 = 1 then (r * x).tmod m else r) < m := by
        split
        · exact tmod_range (by positivity) hm
        · exact ⟨hr0, hr1⟩
      exact ih _ _ _ (by omega) hx2.1 hx2.2 hr2.1 hr2.2
    · rw [powmLoop, dif_neg hy]
      exact ⟨hr0, hr1⟩

theorem powm_range {x y m v : Int} (hm : 2 ≤ m)
    (h : powm x y m = Except.ok v) : 0 ≤ v ∧ v < m := by
  rw [powm, if_neg (by omega : ¬ m ≤ 0)] at h
  by_cases hy : y < 0
  · rw [if_pos hy] at h
    rcases hinv : invert x m with e | xi
    · rw [hinv] at h
      cases h
    · rw [hinv] at h
      have hxr := (invert_spec x m xi (by omega)).2 hinv
      have hv := Except.ok.inj h
      rw [← hv]
      exact powmLoop_range (by omega) (-y).toNat xi (-y) 1 le_rfl hxr.1 hxr.2.1
        (by omega) (by omega)
  · rw [if_neg hy] at h
    have hv := Except.ok.inj h
    rw [← hv]
    exact powmLoop_range (by omega) y.toNat (modCore x m) y 1 le_rfl
      (modCore_nonneg x (by omega)) (modCore_lt x (by omega)) (by omega) (by omega)

theorem fermat_range {x m v : Int} (hm : 2 ≤ m)
    (h : fermat x m = Except.ok v) : 0 ≤ v ∧ v < m := by
  rw [fermat, if_neg (by omega : ¬ m ≤ 0), if_neg (by omega : ¬ m = 1)] at h
  rcases hp : powm x (m - 2) m with e | w
  · rw [hp] at h
    cases h
  · rw [hp] at h
    dsimp only at h
    by_cases hz : w = 0
    · rw [if_pos hz] at h
      cases h
    · rw [if_neg hz] at h
      have hv := Except.ok.inj h
      rw [← hv]
      exact powm_range hm hp

theorem tsLoop_range {p : Int} (hp : 2 ≤ p) : ∀ (fuel : Nat) (y b g : Int) (k : Nat)
    (v : Int), 0 ≤ y → y < p → tsLoop p fuel y b g k = Except.ok v →
    0 ≤ v ∧ v < p := by
  intro fuel
  induction fuel with
  | zero =>
    intro y b g k v hy0 hy1 h
    cases h
  | succ f ih =>
    intro y b g k v hy0 hy1 h
    rw [tsLoop] at h
    rcases hc : tsCountM p b 0 (k + 1) with e | mm
    · rw [hc] at h
      cases h
    · rw [hc] at h
      dsimp only at h
      by_cases hm0 : mm = 0
      · rw [if_pos hm0] at h
        have hv := Except.ok.inj h
        rw [← hv]
        exact ⟨hy0, hy1⟩
      · rw [if_neg hm0] at h
        by_cases hmk : mm = k
        · rw [if_pos hmk] at h
          cases h
        · rw [if_neg hmk] at h
          rcases hpw : powm g ((2 : Int) ^ (k - mm - 1)) p with e | t1
          · rw [hpw] at h
            cases h
          · rw [hpw] at h
            dsimp only at h
            have ht1 := powm_range hp hpw
            have hy2 := tmod_range (mul_nonneg hy0 ht1.1) (by omega : (0:Int) < p)
            exact ih _ _ _ _ _ hy2.1 hy2.2 h

theorem sqrtm_range {x p v : Int} (hp : 2 ≤ p)
    (h : sqrtm x p = Except.ok v) : 0 ≤ v ∧ v < p := by
  rw [sqrtm, if_neg (by omega : ¬ p ≤ 0)] at h
  rcases hj : jacobi x p with e | j
  · rw [hj] at h
    cases h
  · rw [hj] at h
    dsimp only at h
    by_cases hj1 : j = -1
    · rw [if_pos hj1] at h
      cases h
    · rw [if_neg hj1] at h
      by_cases hj0 : j = 0
      · rw [if_pos hj0] at h
        have hv := Except.ok.inj h
        omega
      · rw [if_neg hj0] at h
        have hx1r : 0 ≤ (if x < 0 ∨ x ≥ p then modCore x p else x) ∧
            (if x < 0 ∨ x ≥ p then modCore x p else x) < p := by
          split
          · exact ⟨modCore_nonneg x (by omega), modCore_lt x (by omega)⟩
          · rename_i hc
            push_neg at hc
            omega
        set x1 := if x < 0 ∨ x ≥ p then modCore x p else x with hx1
        by_cases h34 : Int.land p 3 = 3
        · rw [if_pos h34] at h
          exact powm_range hp h
        · rw [if_neg h34] at h
          by_cases h58 : Int.land p 7 = 5
          · rw [if_pos h58] at h
            rcases ha : powm (jsShl x1 1) (Int.shiftRight p 3) p with e | a
            · rw [ha] at h
              cases h
            · rw [ha] at h
              dsimp only at h
              have har := powm_range hp ha
              have ht0 : 0 ≤ jsShl x1 1 := jsShl_nonneg hx1r.1 1
              have hb1 := tmod_range (by positivity : (0:Int) ≤ a ^ 2) (by omega : (0:Int) < p)
              have hb2 := tmod_range (mul_nonneg hb1.1 ht0) (by omega : (0:Int) < p)
              have hv := Except.ok.inj h
              rw [← hv]
              have hb3 : 0 ≤ modCore ((((a ^ 2).tmod p) * jsShl x1 1).tmod p - 1) p :=
                modCore_nonneg _ (by omega)
              have hb4 := tmod_range (mul_nonneg hb3 hx1r.1) (by omega : (0:Int) < p)
              exact tmod_range (mul_nonneg hb4.1 har.1) (by omega : (0:Int) < p)
          · rw [if_neg h58] at h
            rcases hn : findNonResidue p p.natAbs 2 with e | nq
            · rw [hn] at h
              cases h
            · rw [hn] at h
              dsimp only at h
              rcases hy0 : powm x1 (Int.shiftRight
                  (Int.shiftRight (p - 1) (zeroBits (p - 1)) + 1) 1) p with e | y0
              · rw [hy0] at h
                cases h
              · rw [hy0] at h
                dsimp only at h
                rcases hb0 : powm x1 (Int.shiftRight (p - 1) (zeroBits (p - 1))) p with e | b0
                · rw [hb0] at h
                  cases h
                · rw [hb0] at h
                  dsimp only at h
                  rcases hg0 : powm nq (Int.shiftRight (p - 1) (zeroBits (p - 1))) p with e | g0
                  · rw [hg0] at h
                    cases h
                  · rw [hg0] at h
                    dsimp only at h
                    have hyr := powm_range hp hy0
                    exact tsLoop_range hp _ _ _ _ _ _ hyr.1 hyr.2 h

theorem verify2_same {A : Red} {u v : Int} (hu : 0 ≤ u) (hv : 0 ≤ v) :
    verify2 { n := u, red := some A } { n := v, red := some A } = Except.ok () := by
  unfold verify2 sameRed
  rw [if_neg (by dsimp only; omega)]
  simp

theorem verify1_tagged {A : Red} {u : Int} (hu : 0 ≤ u) :
    verify1 { n := u, red := some A } = Except.ok () := by
  unfold verify1 isRed
  rw [if_neg (by dsimp only; omega)]
  rfl

/-- C8, counterexample to the claim as stated: in the ring mod `1` the
only canonical residue is `0`, but `redPow` with exponent `0` returns
the tagged value `1`, which is not in `[0, 1)`. -/
theorem redPow_escapes_range_mod_one :
    BN.redPow { n := 0, red := some { uid := 0, m := 1 } } 0 =
      Except.ok { n := 1, red := some { uid := 0, m := 1 } } ∧
    ¬ ((1 : Int) < 1) := by
  constructor
  · simp +decide [BN.redPow, Red.pow, Red.ipow, verify1, isRed, powm, powmLoop, modCore]
  · decide

/-- C8 (amended): `toRed` always lands in `[0, m)` for `m ≥ 1`, and for
a modulus `m ≥ 2` every ring-scoped operation — `redAdd`, `redSub`,
`redNeg`, `redShln`, `redMul`, `redSqr`, `redPow`, `redInvert`,
`redSqrt`, `redFermat` — applied to canonical ring-tagged inputs returns
a value in `[0, m)`.  (For `m = 1`, `redPow`/`redPown` with exponent `0`
return `1`, outside `[0, 1)`; all other listed operations stay
canonical there too.) -/
theorem red_ops_stay_canonical (A ctx1 : Red) (u v e k x0 : Int)
    (w1 w2 w3 w4 w5 w6 w7 w8 w9 w10 : BNR)
    (hm1 : 1 ≤ ctx1.m) (hm : 2 ≤ A.m)
    (hu : 0 ≤ u ∧ u < A.m) (hv : 0 ≤ v ∧ v < A.m)
    (h1 : BN.redAdd { n := u, red := some A } { n := v, red := some A } = Except.ok w1)
    (h2 : BN.redSub { n := u, red := some A } { n := v, red := some A } = Except.ok w2)
    (h3 : BN.redNeg { n := u, red := some A } = Except.ok w3)
    (h4 : BN.redShln { n := u, red := some A } k = Except.ok w4)
    (h5 : BN.redMul { n := u, red := some A } { n := v, red := some A } = Except.ok w5)
    (h6 : BN.redSqr { n := u, red := some A } = Except.ok w6)
    (h7 : BN.redPow { n := u, red := some A } e = Except.ok w7)
    (h8 : BN.redInvert { n := u, red := some A } = Except.ok w8)
    (h9 : BN.redSqrt { n := u, red := some A } = Except.ok w9)
    (h10 : BN.redFermat { n := u, red := some A } = Except.ok w10) :
    (0 ≤ (Red.convertTo ctx1 x0).n ∧ (Red.convertTo ctx1 x0).n < ctx1.m) ∧
    (0 ≤ w1.n ∧ w1.n < A.m) ∧ (0 ≤ w2.n ∧ w2.n < A.m) ∧
    (0 ≤ w3.n ∧ w3.n < A.m) ∧ (0 ≤ w4.n ∧ w4.n < A.m) ∧
    (0 ≤ w5.n ∧ w5.n < A.m) ∧ (0 ≤ w6.n ∧ w6.n < A.m) ∧
    (0 ≤ w7.n ∧ w7.n < A.m) ∧ (0 ≤ w8.n ∧ w8.n < A.m) ∧
    (0 ≤ w9.n ∧ w9.n < A.m) ∧ (0 ≤ w10.n ∧ w10.n < A.m) := by
  have hv2 := verify2_same (A := A) hu.1 hv.1
  have hv1 := verify1_tagged (A := A) hu.1
  have hmp : (0 : Int) < A.m := by omega
  refine ⟨?_, ?_, ?_, ?_, ?_, ?_, ?_, ?_, ?_, ?_, ?_⟩
  · exact ⟨modCore_nonneg x0 (by omega), modCore_lt x0 (by omega)⟩
  · unfold BN.redAdd Red.add Red.iadd at h1
    rw [hv2] at h1
    dsimp only at h1
    have hw := Except.ok.inj h1
    rw [← hw]
    dsimp only
    split <;> omega
  · unfold BN.redSub Red.sub Red.isub at h2
    rw [hv2] at h2
    dsimp only at h2
    have hw := Except.ok.inj h2
    rw [← hw]
    dsimp only
    split <;> omega
  · unfold BN.redNeg Red.neg Red.ineg at h3
    rw [hv1] at h3
    dsimp only at h3
    have hw := Except.ok.inj h3
    rw [← hw]
    dsimp only
    split <;> omega
  · unfold BN.redShln Red.shln Red.ishln at h4
    rw [hv1] at h4
    dsimp only at h4
    have hw := Except.ok.inj h4
    rw [← hw]
    dsimp only
    exact tmod_range (jsShl_nonneg hu.1 k) hmp
  · unfold BN.redMul Red.mul Red.imul at h5
    rw [hv2] at h5
    dsimp only at h5
    have hw := Except.ok.inj h5
    rw [← hw]
    dsimp only
    exact tmod_range (mul_nonneg hu.1 hv.1) hmp
  · unfold BN.redSqr Red.sqr Red.isqr at h6
    rw [hv1] at h6
    dsimp only at h6
    have hw := Except.ok.inj h6
    rw [← hw]
    dsimp only
    exact tmod_range (by positivity) hmp
  · unfold BN.redPow Red.pow Red.ipow at h7
    rw [hv1] at h7
    dsimp only at h7
    rcases hpw : powm u e A.m with er | pv
    · rw [hpw] at h7
      cases h7
    · rw [hpw] at h7
      dsimp only at h7
      have hb := powm_range hm hpw
      have hw := Except.ok.inj h7
      rw [← hw]
      exact hb
  · unfold BN.redInvert Red.invert Red.iinvert at h8
    rw [hv1] at h8
    dsimp only at h8
    rcases hpw : Bcrypto.invert u A.m with er | pv
    · rw [hpw] at h8
      cases h8
    · rw [hpw] at h8
      dsimp only at h8
      have hb := (invert_spec u A.m pv (by omega)).2 hpw
      have hw := Except.ok.inj h8
      rw [← hw]
      exact ⟨hb.1, hb.2.1⟩
  · unfold BN.redSqrt Red.sqrt Red.isqrt at h9
    rw [hv1] at h9
    dsimp only at h9
    rcases hpw : sqrtm u A.m with er | pv
    · rw [hpw] at h9
      cases h9
    · rw [hpw] at h9
      dsimp only at h9
      have hb := sqrtm_range hm hpw
      have hw := Except.ok.inj h9
      rw [← hw]
      exact hb
  · unfold BN.redFermat Red.fermat Red.ifermat at h10
    rw [hv1] at h10
    dsimp only at h10
    rcases hpw : Bcrypto.fermat u A.m with er | pv
    · rw [hpw] at h10
      cases h10
    · rw [hpw] at h10
      dsimp only at h10
      have hb := fermat_range hm hpw
      have hw := Except.ok.inj h10
      rw [← hw]
      exact hb

/-- Witness for `red_ops_stay_canonical`: modulus 5, inputs 4 and 3,
exponent 3, shift 1; `toRed` checked in the ring mod 1 at input 7. -/
theorem red_ops_stay_canonical_witness :
    ((0:Int) ≤ (0:Int) ∧ (0:Int) < 1) ∧
    ((0:Int) ≤ 2 ∧ (2:Int) < 5) ∧ ((0:Int) ≤ 1 ∧ (1:Int) < 5) ∧
    ((0:Int) ≤ 1 ∧ (1:Int) < 5) ∧ ((0:Int) ≤ 3 ∧ (3:Int) < 5) ∧
    ((0:Int) ≤ 2 ∧ (2:Int) < 5) ∧ ((0:Int) ≤ 1 ∧ (1:Int) < 5) ∧
    ((0:Int) ≤ 4 ∧ (4:Int) < 5) ∧ ((0:Int) ≤ 4 ∧ (4:Int) < 5) ∧
    ((0:Int) ≤ 3 ∧ (3:Int) < 5) ∧ ((0:Int) ≤ 4 ∧ (4:Int) < 5) :=
  red_ops_stay_canonical { uid := 0, m := 5 } { uid := 1, m := 1 } 4 3 3 1 7
    { n := 2, red := some { uid := 0, m := 5 } }
    { n := 1, red := some { uid := 0, m := 5 } }
    { n := 1, red := some { uid := 0, m := 5 } }
    { n := 3, red := some { uid := 0, m := 5 } }
    { n := 2, red := some { uid := 0, m := 5 } }
    { n := 1, red := some { uid := 0, m := 5 } }
    { n := 4, red := some { uid := 0, m := 5 } }
    { n := 4, red := some { uid := 0, m := 5 } }
    { n := 3, red := some { uid := 0, m := 5 } }
    { n := 4, red := some { uid := 0, m := 5 } }
    (by decide) (by decide) (by decide) (by decide)
    (by rfl) (by rfl) (by rfl) (by rfl) (by rfl) (by rfl)
    (by simp +decide [BN.redPow, Red.pow, Red.ipow, verify1, isRed, powm,
      powmLoop, modCore])
    (by simp +decide [BN.redInvert, Red.invert, Red.iinvert, verify1, isRed,
      invert, invertLoop, modCore])
    (by simp +decide [BN.redSqrt, Red.sqrt, Red.isqrt, verify1, isRed, sqrtm,
      jacobi, jacobiLoop, zeroBits, zeroBitsNat, modCore, powm, powmLoop,
      jsShl])
    (by simp +decide [BN.redFermat, Red.fermat, Red.ifermat, verify1, isRed,
      fermat, powm, powmLoop, modCore])

/-! ### C3: modular square roots.  First: correctness of `jacobi`
against Mathlib's `jacobiSym`. -/

theorem land_three {b : Int} (hb : 0 ≤ b) : Int.land b 3 = b % 4 := by
  cases b with
  | ofNat m =>
    have e1 : Int.land (Int.ofNat m) 3 = Int.ofNat (m &&& 3) := rfl
    have e2 : m &&& 3 = m % 4 := by
      have h := Nat.and_pow_two_sub_one_eq_mod m 2
      norm_num at h
      exact h
    rw [e1, e2]
    rfl
  | negSucc m =>
    exact absurd (lt_of_lt_of_le (Int.negSucc_lt_zero m) hb) (lt_irrefl _)

theorem land_seven {b : Int} (hb : 0 ≤ b) : Int.land b 7 = b % 8 := by
  cases b with
  | ofNat m =>
    have e1 : Int.land (Int.ofNat m) 7 = Int.ofNat (m &&& 7) := rfl
    have e2 : m &&& 7 = m % 8 := by
      have h := Nat.and_pow_two_sub_one_eq_mod m 3
      norm_num at h
      exact h
    rw [e1, e2]
    rfl
  | negSucc m =>
    exact absurd (lt_of_lt_of_le (Int.negSucc_lt_zero m) hb) (lt_irrefl _)

theorem zeroBitsNat_spec : ∀ n : Nat, n ≠ 0 →
    (n >>> zeroBitsNat n) % 2 = 1 ∧ (n >>> zeroBitsNat n) * 2 ^ zeroBitsNat n = n := by
  intro n
  induction n using Nat.strong_induction_on with
  | _ n ih =>
    intro h0
    rw [zeroBitsNat, dif_neg h0]
    by_cases hodd : n % 2 = 1
    · rw [if_pos hodd]
      simpa using hodd
    · rw [if_neg hodd]
      have hn2 : n / 2 ≠ 0 := by omega
      have hlt : n / 2 < n := Nat.div_lt_self (Nat.pos_of_ne_zero h0) one_lt_two
      obtain ⟨ih1, ih2⟩ := ih (n / 2) hlt hn2
      have hsh : n >>> (zeroBitsNat (n / 2) + 1) = (n / 2) >>> zeroBitsNat (n / 2) := by
        rw [Nat.shiftRight_eq_div_pow, Nat.shiftRight_eq_div_pow, pow_succ,
          Nat.mul_comm, ← Nat.div_div_eq_div_mul]
      rw [hsh]
      refine ⟨ih1, ?_⟩
      rw [pow_succ]
      have heven : n % 2 = 0 := by omega
      have : ((n / 2) >>> zeroBitsNat (n / 2)) * (2 ^ zeroBitsNat (n / 2) * 2) =
          ((n / 2) >>> zeroBitsNat (n / 2)) * 2 ^ zeroBitsNat (n / 2) * 2 := by ring
      rw [this, ih2]
      omega

/-- Odd-part decomposition of a positive integer, as performed by the
Jacobi loop. -/
theorem shiftRight_zeroBits_spec {a : Int} (ha : 0 < a) :
    (Int.shiftRight a (zeroBits a)).toNat % 2 = 1 ∧
    Int.shiftRight a (zeroBits a) * 2 ^ zeroBits a = a := by
  cases a with
  | ofNat m =>
    have hm : m ≠ 0 := by
      intro hc
      subst hc
      exact absurd ha (by decide)
    obtain ⟨h1, h2⟩ := zeroBitsNat_spec m hm
    have e1 : Int.shiftRight (Int.ofNat m) (zeroBits (Int.ofNat m)) =
        Int.ofNat (m >>> zeroBitsNat m) := rfl
    constructor
    · rw [e1]
      simpa using h1
    · have h2c : ((m >>> zeroBitsNat m : Nat) : Int) * 2 ^ zeroBitsNat m =
          ((m : Nat) : Int) := by
        exact_mod_cast h2
      have ez : zeroBits (Int.ofNat m) = zeroBitsNat m := rfl
      rw [e1, ez, Int.ofNat_eq_natCast, Int.ofNat_eq_natCast]
      exact h2c
  | negSucc m =>
    exact absurd (lt_trans ha (Int.negSucc_lt_zero m)) (lt_irrefl 0)

theorem chi8_pow (B : Nat) (hodd : B % 2 = 1) (s : Nat) :
    ((ZMod.χ₈ B : Int)) ^ s =
      if s % 2 = 1 ∧ (B % 8 = 3 ∨ B % 8 = 5) then -1 else 1 := by
  rw [ZMod.χ₈_nat_eq_if_mod_eight]
  rw [if_neg (by omega)]
  by_cases h17 : B % 8 = 1 ∨ B % 8 = 7
  · rw [if_pos h17, one_pow, if_neg (by omega)]
  · rw [if_neg h17]
    have h35 : B % 8 = 3 ∨ B % 8 = 5 := by omega
    by_cases hs : s % 2 = 1
    · rw [if_pos ⟨hs, h35⟩]
      exact Odd.neg_one_pow ⟨s / 2, by omega⟩
    · rw [if_neg (by tauto)]
      exact Even.neg_one_pow ⟨s / 2, by omega⟩

theorem jacobiLoop_eq : ∀ (cnt : Nat) (a b j : Int),
    b.natAbs ≤ cnt → 0 ≤ a → 0 < b → b % 2 = 1 →
    jacobiLoop a b j = Except.ok (j * jacobiSym a b.toNat) := by
  intro cnt
  induction cnt with
  | zero =>
    intro a b j hc ha hb hodd
    omega
  | succ n ih =>
    intro a b j hc ha hb hodd
    rw [jacobiLoop]
    by_cases hb1 : b = 1
    · rw [if_pos hb1]
      subst hb1
      rw [show (1 : Int).toNat = 1 from rfl, jacobiSym.one_right, mul_one]
    · rw [if_neg hb1]
      have hb3 : 3 ≤ b := by omega
      have hBb : ((b.toNat : Nat) : Int) = b := Int.toNat_of_nonneg hb.le
      have hB1 : 1 < b.toNat := by omega
      have hBmod2 : b.toNat % 2 = 1 := by omega
      have hBodd : Odd b.toNat := Nat.odd_iff.mpr hBmod2
      by_cases ha0 : a = 0
      · rw [if_pos ha0]
        subst ha0
        rw [jacobiSym.zero_left hB1, mul_zero]
      · rw [if_neg ha0]
        rw [dif_neg (by omega : ¬ b = 0)]
        have ha1emod : a.tmod b = a % b := Int.tmod_eq_emod ha hb.le
        have hJmod : jacobiSym a b.toNat = jacobiSym (a.tmod b) b.toNat := by
          rw [ha1emod]
          have h := jacobiSym.mod_left a b.toNat
          rw [hBb] at h
          exact h
        by_cases ha1 : a.tmod b = 0
        · simp only [if_pos ha1]
          rw [hJmod, ha1, jacobiSym.zero_left hB1, mul_zero]
        · simp only [if_neg ha1]
          have ha1pos : 0 < a.tmod b :=
            lt_of_le_of_ne (Int.tmod_nonneg b ha) (Ne.symm ha1)
          obtain ⟨hcodd, hcdec⟩ := shiftRight_zeroBits_spec ha1pos
          have hcpos : 0 < Int.shiftRight (a.tmod b) (zeroBits (a.tmod b)) :=
            shiftRight_zeroBits_pos ha1pos
          set s := zeroBits (a.tmod b) with hs
          set c := Int.shiftRight (a.tmod b) s with hcdef
          have hcleB : c.natAbs ≤ (a.tmod b).natAbs := natAbs_shiftRight_le _ _
          have hblt : (a.tmod b).natAbs < b.natAbs := natAbs_tmod_lt a (by omega)
          have hl7 : Int.land b 7 = b % 8 := land_seven hb.le
          have hl3b : Int.land b 3 = b % 4 := land_three hb.le
          have hl3c : Int.land c 3 = c % 4 := land_three hcpos.le
          have hcc : ((c.toNat : Nat) : Int) = c := Int.toNat_of_nonneg hcpos.le
          have hcoddInt : c % 2 = 1 := by omega
          have hres : ∀ j0 : Int, jacobiLoop b c j0 =
              Except.ok (j0 * jacobiSym b c.toNat) :=
            fun j0 => ih b c j0 (by omega) hb.le hcpos hcoddInt
          rw [hl7, hl3b, hl3c, hres]
          congr 1
          have hQ := jacobiSym.quadratic_reciprocity_if (a := c.toNat) (b := b.toNat)
            hcodd hBmod2
          rw [hcc, hBb] at hQ
          have hJa : jacobiSym a b.toNat =
              (if c.toNat % 4 = 3 ∧ b.toNat % 4 = 3 then -(jacobiSym b c.toNat)
                else jacobiSym b c.toNat) *
              (if s % 2 = 1 ∧ (b.toNat % 8 = 3 ∨ b.toNat % 8 = 5) then (-1 : Int)
                else 1) := by
            calc jacobiSym a b.toNat
                = jacobiSym (a.tmod b) b.toNat := hJmod
              _ = jacobiSym (c * 2 ^ s) b.toNat := by rw [hcdec]
              _ = jacobiSym c b.toNat * jacobiSym ((2 : Int) ^ s) b.toNat :=
                  jacobiSym.mul_left c (2 ^ s) b.toNat
              _ = jacobiSym c b.toNat * jacobiSym 2 b.toNat ^ s := by
                  rw [jacobiSym.pow_left]
              _ = jacobiSym c b.toNat * (ZMod.χ₈ b.toNat : Int) ^ s := by
                  rw [jacobiSym.at_two hBodd]
              _ = jacobiSym c b.toNat *
                  (if s % 2 = 1 ∧ (b.toNat % 8 = 3 ∨ b.toNat % 8 = 5) then (-1 : Int)
                    else 1) := by rw [chi8_pow b.toNat hBmod2 s]
              _ = _ := by rw [← hQ]
          rw [hJa]
          have hbt : b = (b.toNat : Int) := hBb.symm
          have hct : c = (c.toNat : Int) := hcc.symm
          by_cases hC1 : s % 2 = 1 ∧ (b.toNat % 8 = 3 ∨ b.toNat % 8 = 5)
          · rw [if_pos hC1, if_pos (by omega : s % 2 = 1 ∧ (b % 8 = 3 ∨ b % 8 = 5))]
            by_cases hC2 : c.toNat % 4 = 3 ∧ b.toNat % 4 = 3
            · rw [if_pos hC2, if_pos (by omega : b % 4 = 3 ∧ c % 4 = 3)]
              ring
            · rw [if_neg hC2, if_neg (by omega : ¬ (b % 4 = 3 ∧ c % 4 = 3))]
              ring
          · rw [if_neg hC1, if_neg
              (by omega : ¬ (s % 2 = 1 ∧ (b % 8 = 3 ∨ b % 8 = 5)))]
            by_cases hC2 : c.toNat % 4 = 3 ∧ b.toNat % 4 = 3
            · rw [if_pos hC2, if_pos (by omega : b % 4 = 3 ∧ c % 4 = 3)]
              ring
            · rw [if_neg hC2, if_neg (by omega : ¬ (b % 4 = 3 ∧ c % 4 = 3))]
              ring

/-- For odd positive `y`, the embedded `jacobi` computes Mathlib's
Jacobi symbol. -/
theorem jacobi_eq (x : Int) {y : Int} (h0 : 0 < y) (h2 : y % 2 = 1) :
    jacobi x y = Except.ok (jacobiSym x y.toNat) := by
  rw [jacobi]
  have hl : Int.land y 1 = 1 := land_one_of_odd h0 h2
  rw [if_neg (by simp [hl]; omega)]
  simp only [if_neg (not_lt.mpr h0.le)]
  have hcond : ¬ (y < 0 ∧ x < 0) := by omega
  simp only [if_neg hcond]
  have hYy : ((y.toNat : Nat) : Int) = y := Int.toNat_of_nonneg h0.le
  by_cases hx : x < 0
  · rw [if_pos hx]
    rw [jacobiLoop_eq y.natAbs (modCore x y) y 1 le_rfl
      (modCore_nonneg x (by omega)) h0 h2]
    congr 1
    rw [one_mul]
    have hmc : modCore x y = x % y := modCore_eq_emod x h0
    have h := jacobiSym.mod_left x y.toNat
    rw [hYy] at h
    rw [hmc, ← h]
  · rw [if_neg hx]
    rw [jacobiLoop_eq y.natAbs x y 1 le_rfl (by omega) h0 h2, one_mul]

/-! ### C3: transporting the modular loops to `ZMod p` -/

theorem intCast_tmod (p : Nat) (a : Int) :
    ((a.tmod (p : Int) : Int) : ZMod p) = (a : ZMod p) := by
  rw [ZMod.intCast_eq_intCast_iff]
  show (a.tmod (p : Int)) % (p : Int) = a % (p : Int)
  rw [Int.tmod_def a (p : Int)]
  have e : a - (p : Int) * a.tdiv (p : Int) =
      a + (p : Int) * (-(a.tdiv (p : Int))) := by ring
  rw [e, Int.add_mul_emod_self_left]

theorem intCast_modCore (p : Nat) (a : Int) :
    ((modCore a (p : Int) : Int) : ZMod p) = (a : ZMod p) := by
  rw [ZMod.intCast_eq_intCast_iff]
  exact modCore_emod a (p : Int)

theorem shiftRight_one_toNat {y : Int} (hy : 0 ≤ y) :
    (Int.shiftRight y 1).toNat = y.toNat / 2 := by
  cases y with
  | ofNat n =>
    have e1 : Int.shiftRight (Int.ofNat n) 1 = Int.ofNat (n >>> 1) := rfl
    rw [e1]
    have e2 : ∀ m : Nat, (Int.ofNat m).toNat = m := fun m => rfl
    rw [e2, e2, Nat.shiftRight_eq_div_pow, pow_one]
  | negSucc n =>
    exact absurd (lt_of_lt_of_le (Int.negSucc_lt_zero n) hy) (lt_irrefl _)

theorem tmod_two_eq_one_iff {y : Int} (hy : 0 ≤ y) :
    y.tmod 2 = 1 ↔ y.toNat % 2 = 1 := by
  rw [Int.tmod_eq_emod hy (by norm_num)]
  omega

theorem powmLoop_cast (p : Nat) : ∀ (cnt : Nat) (x y r : Int),
    y.toNat ≤ cnt → 0 ≤ y →
    ((powmLoop (p : Int) x y r : Int) : ZMod p) =
      (r : ZMod p) * (x : ZMod p) ^ y.toNat := by
  intro cnt
  induction cnt with
  | zero =>
    intro x y r hc hy
    have hy0 : y = 0 := by omega
    subst hy0
    rw [powmLoop, dif_neg (by omega : ¬ (0:Int) < 0)]
    simp
  | succ k ih =>
    intro x y r hc hy
    by_cases hyp : 0 < y
    · rw [powmLoop, dif_pos hyp]
      have hy1 : 0 ≤ Int.shiftRight y 1 := shiftRight_nonneg hy 1
      have hyt : (Int.shiftRight y 1).toNat = y.toNat / 2 := shiftRight_one_toNat hy
      have hlt : y.toNat / 2 ≤ k := by
        have h1 : 1 ≤ y.toNat := by omega
        omega
      rw [ih _ _ _ (by omega) hy1]
      rw [hyt]
      have hx2 : (((x ^ 2).tmod (p : Int) : Int) : ZMod p) = (x : ZMod p) ^ 2 := by
        rw [intCast_tmod]
        push_cast
        ring
      rw [hx2]
      by_cases hodd : y.tmod 2 = 1
      · rw [if_pos hodd]
        have hnodd : y.toNat % 2 = 1 := (tmod_two_eq_one_iff hy).mp hodd
        have hk2 : y.toNat = 2 * (y.toNat / 2) + 1 := by omega
        rw [intCast_tmod]
        push_cast
        conv_rhs => rw [hk2]
        ring
      · rw [if_neg hodd]
        have hnodd : ¬ y.toNat % 2 = 1 := fun hcc =>
          hodd ((tmod_two_eq_one_iff hy).mpr hcc)
        have hk2 : y.toNat = 2 * (y.toNat / 2) := by omega
        conv_rhs => rw [hk2]
        ring
    · rw [powmLoop, dif_neg hyp]
      have hy0 : y = 0 := by omega
      subst hy0
      simp

theorem powm_cast {p : Nat} {x y v : Int} (hy : 0 ≤ y)
    (h : powm x y (p : Int) = Except.ok v) :
    ((v : Int) : ZMod p) = (x : ZMod p) ^ y.toNat := by
  rw [powm] at h
  by_cases hm : (p : Int) ≤ 0
  · rw [if_pos hm] at h
    cases h
  · rw [if_neg hm, if_neg (by omega : ¬ y < 0)] at h
    have hv := Except.ok.inj h
    rw [← hv]
    rw [powmLoop_cast p y.toNat _ _ _ le_rfl hy, intCast_modCore]
    simp

/-! ### C3: the Euler-criterion bridge -/

theorem jacobi_eq_legendre {p : Nat} [hp : Fact p.Prime] (hodd : p % 2 = 1)
    (x : Int) : jacobi x (p : Int) = Except.ok (legendreSym p x) := by
  have hp2 : 2 ≤ p := hp.out.two_le
  have h0 : 0 < (p : Int) := by exact_mod_cast Nat.pos_of_ne_zero (by omega)
  have h2 : (p : Int) % 2 = 1 := by omega
  rw [jacobi_eq x h0 h2]
  congr 1
  rw [jacobiSym.legendreSym.to_jacobiSym]
  congr 1

theorem legendre_pow_eq {p : Nat} [Fact p.Prime] (x : Int) :
    ((legendreSym p x : Int) : ZMod p) = (x : ZMod p) ^ (p / 2) :=
  legendreSym.eq_pow p x

theorem legendre_one_pow {p : Nat} [Fact p.Prime] {x : Int}
    (h : legendreSym p x = 1) : (x : ZMod p) ^ (p / 2) = 1 := by
  have hh := legendreSym.eq_pow p x
  rw [h] at hh
  rw [← hh]
  norm_num

theorem legendre_neg_one_pow {p : Nat} [Fact p.Prime] {x : Int}
    (h : legendreSym p x = -1) : (x : ZMod p) ^ (p / 2) = -1 := by
  have hh := legendreSym.eq_pow p x
  rw [h] at hh
  rw [← hh]
  norm_num

theorem legendre_one_ne_zero {p : Nat} [Fact p.Prime] {x : Int}
    (h : legendreSym p x = 1) : (x : ZMod p) ≠ 0 := by
  intro hc
  have h0 : legendreSym p x = 0 := (legendreSym.eq_zero_iff p x).mpr hc
  rw [h] at h0
  cases h0

theorem powm_ok {m x y : Int} (hm : 0 < m) (hy : 0 ≤ y) :
    powm x y m = Except.ok (powmLoop m (modCore x m) y 1) := by
  rw [powm, if_neg (by omega : ¬ m ≤ 0), if_neg (by omega : ¬ y < 0)]

theorem shiftRight_toNat {y : Int} (hy : 0 ≤ y) (s : Nat) :
    (Int.shiftRight y s).toNat = y.toNat / 2 ^ s := by
  cases y with
  | ofNat n =>
    have e1 : Int.shiftRight (Int.ofNat n) s = Int.ofNat (n >>> s) := rfl
    rw [e1]
    have e2 : ∀ m : Nat, (Int.ofNat m).toNat = m := fun m => rfl
    rw [e2, e2, Nat.shiftRight_eq_div_pow]
  | negSucc n =>
    exact absurd (lt_of_lt_of_le (Int.negSucc_lt_zero n) hy) (lt_irrefl _)

/-- `sqrtm` on the `p = 3 mod 4` fast path, in `ZMod p`. -/
theorem sqrtm_three_mod_four {p : Nat} [Fact p.Prime] (hodd : p % 2 = 1)
    (hp3 : 3 ≤ p) {x v : Int}
    (hE : (x : ZMod p) ^ (p / 2) = 1)
    (h4 : p % 4 = 3)
    (h : powm x (Int.shiftRight ((p : Int) + 1) 2) (p : Int) = Except.ok v) :
    ((v : Int) : ZMod p) ^ 2 = (x : ZMod p) := by
  have hy : 0 ≤ Int.shiftRight ((p : Int) + 1) 2 :=
    shiftRight_nonneg (by omega) 2
  have hcast := powm_cast hy h
  have hex : (Int.shiftRight ((p : Int) + 1) 2).toNat = (p + 1) / 4 := by
    rw [shiftRight_toNat (by omega) 2]
    have e : ((p : Int) + 1).toNat = p + 1 := by omega
    rw [e]
    norm_num
  rw [hcast, hex, ← pow_mul]
  have he2 : (p + 1) / 4 * 2 = p / 2 + 1 := by omega
  rw [he2, pow_succ, hE, one_mul]

theorem intCast_inj_small {p : Nat} (hp : 2 ≤ p) {t : Int} (h0 : 0 ≤ t)
    (h1 : t < (p : Int)) (hc : ((t : Int) : ZMod p) = 1) : t = 1 := by
  rw [show (1 : ZMod p) = ((1 : Int) : ZMod p) by norm_num] at hc
  rw [ZMod.intCast_eq_intCast_iff] at hc
  have h2 : t % (p : Int) = 1 % (p : Int) := hc
  rw [Int.emod_eq_of_lt h0 h1, Int.emod_eq_of_lt (by omega) (by omega)] at h2
  exact h2

theorem tsCountM_spec {p : Nat} (hp : 2 ≤ p) : ∀ (fuel : Nat) (t : Int) (m0 d : Nat),
    0 ≤ t → t < (p : Int) → d ≤ fuel → ((t : Int) : ZMod p) ^ (2 ^ d) = 1 →
    ∃ mm, tsCountM (p : Int) t m0 fuel = Except.ok (m0 + mm) ∧ mm ≤ d ∧
      ((t : Int) : ZMod p) ^ (2 ^ mm) = 1 ∧ (mm = 0 → t = 1) ∧
      (∀ i, i < mm → ((t : Int) : ZMod p) ^ (2 ^ i) ≠ 1) := by
  intro fuel
  induction fuel with
  | zero =>
    intro t m0 d h0 h1 hd hpow
    have hd0 : d = 0 := by omega
    subst hd0
    have ht1 : t = 1 := by
      apply intCast_inj_small hp h0 h1
      simpa using hpow
    refine ⟨0, ?_, by omega, by simpa [ht1], fun _ => ht1, by omega⟩
    rw [tsCountM, if_pos ht1, Nat.add_zero]
  | succ f ih =>
    intro t m0 d h0 h1 hd hpow
    by_cases ht1 : t = 1
    · refine ⟨0, ?_, by omega, by simpa [ht1], fun _ => ht1, by omega⟩
      rw [tsCountM, if_pos ht1, Nat.add_zero]
    · have hd1 : 1 ≤ d := by
        by_contra hc
        have hd0 : d = 0 := by omega
        subst hd0
        exact ht1 (intCast_inj_small hp h0 h1 (by simpa using hpow))
      have htr := tmod_range (by positivity : (0:Int) ≤ t ^ 2)
        (by omega : (0:Int) < (p : Int))
      have hcast : (((t ^ 2).tmod (p : Int) : Int) : ZMod p) =
          ((t : Int) : ZMod p) ^ 2 := by
        rw [intCast_tmod]
        push_cast
        ring
      have hpow2 : (((t ^ 2).tmod (p : Int) : Int) : ZMod p) ^ (2 ^ (d - 1)) = 1 := by
        rw [hcast, ← pow_mul]
        have : 2 * 2 ^ (d - 1) = 2 ^ d := by
          rw [← pow_succ']
          congr 1
          omega
        rw [this]
        exact hpow
      obtain ⟨mm, hres, hmm, hpw, hz, hleast⟩ :=
        ih ((t ^ 2).tmod (p : Int)) (m0 + 1) (d - 1) htr.1 htr.2 (by omega) hpow2
      refine ⟨mm + 1, ?_, by omega, ?_, by omega, ?_⟩
      · rw [tsCountM, if_neg ht1]
        rw [hres]
        congr 1
        omega
      · have e : ((t : Int) : ZMod p) ^ 2 ^ (mm + 1) =
            (((t ^ 2).tmod (p : Int) : Int) : ZMod p) ^ 2 ^ mm := by
          rw [hcast, ← pow_mul]
          congr 1
          rw [pow_succ']
        rw [e]
        exact hpw
      · intro i hi
        match i with
        | 0 =>
          intro hc
          exact ht1 (intCast_inj_small hp h0 h1 (by simpa using hc))
        | i + 1 =>
          intro hc
          apply hleast i (by omega)
          have e : (((t ^ 2).tmod (p : Int) : Int) : ZMod p) ^ 2 ^ i =
              ((t : Int) : ZMod p) ^ 2 ^ (i + 1) := by
            rw [hcast, ← pow_mul]
            congr 1
            rw [pow_succ']
          rw [e]
          exact hc

theorem tsLoop_correct {p : Nat} [Fact p.Prime] (hp : 3 ≤ p) (X : ZMod p) :
    ∀ (fuel : Nat) (y b g : Int) (k : Nat),
    0 ≤ y → y < (p : Int) → 0 ≤ b → b < (p : Int) → 0 ≤ g → g < (p : Int) →
    1 ≤ k → k < fuel →
    ((y : Int) : ZMod p) ^ 2 = X * ((b : Int) : ZMod p) →
    ((b : Int) : ZMod p) ^ 2 ^ (k - 1) = 1 →
    ((g : Int) : ZMod p) ^ 2 ^ (k - 1) = -1 →
    ∃ v, tsLoop (p : Int) fuel y b g k = Except.ok v ∧
      ((v : Int) : ZMod p) ^ 2 = X ∧ 0 ≤ v ∧ v < (p : Int) := by
  intro fuel
  induction fuel with
  | zero =>
    intro y b g k _ _ _ _ _ _ hk1 hk2 _ _ _
    exact absurd hk2 (by omega)
  | succ f ih =>
    intro y b g k hy0 hy1 hb0 hb1 hg0 hg1 hk1 hk2 hyX hbpow hgpow
    have hp2 : 2 ≤ p := by omega
    have hpI : (0 : Int) < (p : Int) := by exact_mod_cast Nat.pos_of_ne_zero (by omega)
    obtain ⟨mm, hts, hmle, hbm, hbz, hleast⟩ :=
      tsCountM_spec hp2 (k + 1) b 0 (k - 1) hb0 hb1 (by omega) hbpow
    rw [Nat.zero_add] at hts
    rw [tsLoop, hts]
    dsimp only
    by_cases hm0 : mm = 0
    · rw [if_pos hm0]
      have hbOne : b = 1 := hbz hm0
      refine ⟨y, rfl, ?_, hy0, hy1⟩
      rw [hyX, hbOne]
      norm_num
    · have hmk : ¬ mm = k := by omega
      rw [if_neg hm0, if_neg hmk]
      have hexp0 : (0 : Int) ≤ (2 : Int) ^ (k - mm - 1) := by positivity
      obtain ⟨t1, hpw⟩ : ∃ t1, powm g ((2 : Int) ^ (k - mm - 1)) (p : Int) =
          Except.ok t1 := ⟨_, powm_ok hpI hexp0⟩
      rw [hpw]
      dsimp only
      obtain ⟨ht10, ht11⟩ := powm_range (by exact_mod_cast hp2) hpw
      have h2n : ((2 : Int) ^ (k - mm - 1)).toNat = 2 ^ (k - mm - 1) := by
        rw [show ((2 : Int)) = ((2 : Nat) : Int) from rfl, ← Nat.cast_pow, Int.toNat_natCast]
      have hT1 : ((t1 : Int) : ZMod p) = ((g : Int) : ZMod p) ^ 2 ^ (k - mm - 1) := by
        have hc := powm_cast hexp0 hpw
        rwa [h2n] at hc
      have hg2c : ((((t1 ^ 2).tmod (p : Int)) : Int) : ZMod p) =
          ((g : Int) : ZMod p) ^ 2 ^ (k - mm) := by
        rw [intCast_tmod]
        push_cast
        rw [hT1, ← pow_mul]
        congr 1
        rw [← pow_succ]
        congr 1
        omega
      have hg2pow : ((((t1 ^ 2).tmod (p : Int)) : Int) : ZMod p) ^ 2 ^ (mm - 1) = -1 := by
        rw [hg2c, ← pow_mul, ← pow_add, show k - mm + (mm - 1) = k - 1 from by omega, hgpow]
      have hzsq : (((b : Int) : ZMod p) ^ 2 ^ (mm - 1)) ^ 2 = 1 := by
        rw [← pow_mul, ← pow_succ, show mm - 1 + 1 = mm from by omega, hbm]
      have hzne : ((b : Int) : ZMod p) ^ 2 ^ (mm - 1) ≠ 1 := hleast (mm - 1) (by omega)
      have hzneg : ((b : Int) : ZMod p) ^ 2 ^ (mm - 1) = -1 := by
        have hfac : (((b : Int) : ZMod p) ^ 2 ^ (mm - 1) - 1) *
            (((b : Int) : ZMod p) ^ 2 ^ (mm - 1) + 1) = 0 := by
          linear_combination hzsq
        rcases mul_eq_zero.mp hfac with h | h
        · exact absurd (by linear_combination h) hzne
        · linear_combination h
      have hb2c : (((b * ((t1 ^ 2).tmod (p : Int))).tmod (p : Int) : Int) : ZMod p) =
          ((b : Int) : ZMod p) * ((((t1 ^ 2).tmod (p : Int)) : Int) : ZMod p) := by
        rw [intCast_tmod]
        push_cast
        ring
      have hy2c : (((y * t1).tmod (p : Int) : Int) : ZMod p) =
          ((y : Int) : ZMod p) * ((t1 : Int) : ZMod p) := by
        rw [intCast_tmod]
        push_cast
        ring
      have hg2T : ((((t1 ^ 2).tmod (p : Int)) : Int) : ZMod p) =
          ((t1 : Int) : ZMod p) ^ 2 := by
        rw [intCast_tmod]
        push_cast
        ring
      obtain ⟨hg20, hg21⟩ := tmod_range (by positivity : (0 : Int) ≤ t1 ^ 2) hpI
      obtain ⟨hy20, hy21⟩ := tmod_range (mul_nonneg hy0 ht10) hpI
      obtain ⟨hb20, hb21⟩ := tmod_range (mul_nonneg hb0 hg20) hpI
      exact ih _ _ _ mm hy20 hy21 hb20 hb21 hg20 hg21 (by omega) (by omega)
        (by rw [hy2c, hb2c, mul_pow, hyX, hg2T]; ring)
        (by rw [hb2c, mul_pow, hzneg, hg2pow]; norm_num)
        hg2pow

theorem findNonResidue_ok {p : Nat} [Fact p.Prime] (hodd : p % 2 = 1) :
    ∀ (fuel : Nat) (n : Int), 0 ≤ n →
    (∃ n0 : Int, n ≤ n0 ∧ n0 < (p : Int) ∧ legendreSym p n0 = -1) →
    ((p : Int) - n).toNat ≤ fuel →
    ∃ r, findNonResidue (p : Int) fuel n = Except.ok r ∧
      0 ≤ r ∧ legendreSym p r = -1 := by
  intro fuel
  induction fuel with
  | zero =>
    intro n hn hex hf
    obtain ⟨n0, h1, h2, _⟩ := hex
    exact absurd hf (by omega)
  | succ f ih =>
    intro n hn hex hf
    obtain ⟨n0, h1, h2, h3⟩ := hex
    have hj : jacobi n (p : Int) = Except.ok (legendreSym p n) :=
      jacobi_eq_legendre hodd n
    rw [findNonResidue, hj]
    dsimp only
    by_cases hneg : legendreSym p n = -1
    · rw [if_pos hneg]
      exact ⟨n, rfl, hn, hneg⟩
    · rw [if_neg hneg]
      apply ih (n + 1) (by omega) ?_ (by omega)
      refine ⟨n0, ?_, h2, h3⟩
      rcases eq_or_lt_of_le h1 with he | hlt
      · exact absurd (by rw [he]; exact h3) hneg
      · omega

theorem exists_nonresidue {p : Nat} [hpp : Fact p.Prime] (hodd : p % 2 = 1) :
    ∃ n0 : Int, 2 ≤ n0 ∧ n0 < (p : Int) ∧ legendreSym p n0 = -1 := by
  have hp3 : 3 ≤ p := by
    have := hpp.out.two_le
    omega
  haveI : NeZero p := ⟨by omega⟩
  have hchar : ringChar (ZMod p) ≠ 2 := by
    rw [ZMod.ringChar_zmod_n]
    omega
  obtain ⟨a, ha⟩ := FiniteField.exists_nonsquare hchar
  have hcastv : (((a.val : Int)) : ZMod p) = a := by
    push_cast
    exact ZMod.natCast_rightInverse a
  have hv0 : a.val ≠ 0 := by
    intro h
    apply ha
    have : a = 0 := by
      rw [← hcastv, h]
      norm_num
    rw [this]
    exact ⟨0, by norm_num⟩
  have hv1 : a.val ≠ 1 := by
    intro h
    apply ha
    have : a = 1 := by
      rw [← hcastv, h]
      norm_num
    rw [this]
    exact ⟨1, by norm_num⟩
  refine ⟨(a.val : Int), by exact_mod_cast (by omega : 2 ≤ a.val), ?_, ?_⟩
  · exact_mod_cast ZMod.val_lt a
  · rw [legendreSym.eq_neg_one_iff, hcastv]
    exact ha

theorem cast_eq_modCore_eq {p : Nat} (hp : 0 < p) {a b : Int}
    (h : ((a : Int) : ZMod p) = ((b : Int) : ZMod p)) :
    modCore a (p : Int) = modCore b (p : Int) := by
  have hpI : (0 : Int) < (p : Int) := by exact_mod_cast hp
  rw [modCore_eq_emod a hpI, modCore_eq_emod b hpI]
  exact (ZMod.intCast_eq_intCast_iff a b p).mp h

/-- C3: for every odd prime `p` and every integer `x`, `sqrtm(x, p)` raises
the "X is not a square mod P" error when the Jacobi symbol of `x` mod `p`
is `-1`; returns `0` when it is `0`; and when it is `1` returns a value `r`
with `r^2 mod p = x mod p`, through the `p = 3 mod 4` fast path, the
`p = 5 mod 8` Atkin path, or general Tonelli-Shanks. -/
theorem sqrtm_spec {p : Nat} [hpp : Fact p.Prime] (hodd : p % 2 = 1) (x : Int) :
    (jacobiSym x p = -1 → sqrtm x (p : Int) = Except.error "X is not a square mod P.") ∧
    (jacobiSym x p = 0 → sqrtm x (p : Int) = Except.ok 0) ∧
    (jacobiSym x p = 1 → ∃ r, sqrtm x (p : Int) = Except.ok r ∧
      modCore (r ^ 2) (p : Int) = modCore x (p : Int)) := by
  have hp3 : 3 ≤ p := by
    have := hpp.out.two_le
    omega
  have hpI : (0 : Int) < (p : Int) := by exact_mod_cast Nat.pos_of_ne_zero (by omega)
  have hj : jacobi x (p : Int) = Except.ok (jacobiSym x p) := by
    have hc := jacobi_eq x hpI (by omega : ((p : Int)) % 2 = 1)
    rwa [Int.toNat_natCast] at hc
  refine ⟨?_, ?_, ?_⟩
  · intro hJ
    rw [sqrtm, if_neg (by omega : ¬ ((p : Int)) ≤ 0), hj]
    dsimp only
    rw [if_pos hJ]
  · intro hJ
    rw [sqrtm, if_neg (by omega : ¬ ((p : Int)) ≤ 0), hj]
    dsimp only
    rw [if_neg (by rw [hJ]; decide), if_pos hJ]
  · intro hJ
    rw [sqrtm, if_neg (by omega : ¬ ((p : Int)) ≤ 0), hj]
    dsimp only
    rw [if_neg (by rw [hJ]; decide), if_neg (by rw [hJ]; decide)]
    set x1 : Int := (if x < 0 ∨ x ≥ (p : Int) then modCore x (p : Int) else x) with hx1def
    have hx1all : ((x1 : Int) : ZMod p) = (x : ZMod p) ∧ 0 ≤ x1 ∧ x1 < (p : Int) := by
      by_cases hc : x < 0 ∨ x ≥ (p : Int)
      · rw [hx1def, if_pos hc]
        exact ⟨intCast_modCore p x, modCore_nonneg x (by omega), modCore_lt x hpI⟩
      · rw [hx1def, if_neg hc]
        exact ⟨rfl, by omega, by omega⟩
    obtain ⟨hX1, hx10, hx11⟩ := hx1all
    have hleg : legendreSym p x = 1 := by
      rw [jacobiSym.legendreSym.to_jacobiSym]
      exact hJ
    have hEx : ((x : Int) : ZMod p) ^ (p / 2) = 1 := legendre_one_pow hleg
    have hEx1 : ((x1 : Int) : ZMod p) ^ (p / 2) = 1 := by
      rw [hX1]
      exact hEx
    have h2I : (2 : Int) ≤ (p : Int) := by omega
    by_cases h4 : p % 4 = 3
    · have hland : Int.land ((p : Int)) 3 = 3 := by
        rw [land_three (by omega : (0 : Int) ≤ (p : Int))]
        omega
      rw [if_pos hland]
      obtain ⟨v, hpv⟩ : ∃ v, powm x1 (Int.shiftRight ((p : Int) + 1) 2) (p : Int) =
          Except.ok v := ⟨_, powm_ok hpI (shiftRight_nonneg (by omega) 2)⟩
      rw [hpv]
      refine ⟨v, rfl, ?_⟩
      have hv := sqrtm_three_mod_four hodd hp3 hEx1 h4 hpv
      apply cast_eq_modCore_eq (by omega)
      push_cast
      rw [hv, hX1]
    · by_cases h8 : p % 8 = 5
      · have hland3 : ¬ Int.land ((p : Int)) 3 = 3 := by
          rw [land_three (by omega : (0 : Int) ≤ (p : Int))]
          omega
        have hland7 : Int.land ((p : Int)) 7 = 5 := by
          rw [land_seven (by omega : (0 : Int) ≤ (p : Int))]
          omega
        rw [if_neg hland3, if_pos hland7]
        have ht : jsShl x1 1 = x1 * 2 := by
          rw [jsShl, if_pos (by omega : (0 : Int) ≤ 1)]
          norm_num
        obtain ⟨a, hpa⟩ : ∃ a, powm (jsShl x1 1) (Int.shiftRight ((p : Int)) 3) (p : Int) =
            Except.ok a := ⟨_, powm_ok hpI (shiftRight_nonneg (by omega) 3)⟩
        rw [hpa]
        dsimp only
        refine ⟨_, rfl, ?_⟩
        have he3 : (Int.shiftRight ((p : Int)) 3).toNat = p / 8 := by
          rw [shiftRight_toNat (by omega) 3, Int.toNat_natCast]
          norm_num
        have hA : ((a : Int) : ZMod p) = (((jsShl x1 1 : Int)) : ZMod p) ^ (p / 8) := by
          have hc := powm_cast (shiftRight_nonneg (by omega) 3) hpa
          rwa [he3] at hc
        have hA2 : ((a : Int) : ZMod p) = (2 * ((x1 : Int) : ZMod p)) ^ (p / 8) := by
          rw [hA, ht]
          push_cast
          ring_nf
        have hleg2 : legendreSym p 2 = -1 := by
          have h2 := legendreSym.at_two (p := p) (by omega : p ≠ 2)
          rw [ZMod.χ₈_nat_eq_if_mod_eight, if_neg (by omega), if_neg (by omega)] at h2
          exact h2
        have hE2 : ((2 : ZMod p)) ^ (p / 2) = -1 := by
          have hh := legendre_neg_one_pow (x := 2) hleg2
          rwa [show (((2 : Int)) : ZMod p) = (2 : ZMod p) from by norm_num] at hh
        have hI2 : (((a : Int) : ZMod p) ^ 2 * (2 * ((x1 : Int) : ZMod p))) ^ 2 = -1 := by
          rw [hA2, ← pow_mul, ← pow_succ, ← pow_mul]
          rw [show (p / 8 * 2 + 1) * 2 = p / 2 from by omega]
          rw [mul_pow, hE2, hEx1]
          norm_num
        apply cast_eq_modCore_eq (by omega)
        push_cast [intCast_tmod, intCast_modCore, ht]
        rw [← hX1]
        linear_combination (((x1 : Int) : ZMod p) ^ 2 * ((a : Int) : ZMod p) ^ 2 -
          ((x1 : Int) : ZMod p)) * hI2
      · have hland3 : ¬ Int.land ((p : Int)) 3 = 3 := by
          rw [land_three (by omega : (0 : Int) ≤ (p : Int))]
          omega
        have hland7 : ¬ Int.land ((p : Int)) 7 = 5 := by
          rw [land_seven (by omega : (0 : Int) ≤ (p : Int))]
          omega
        rw [if_neg hland3, if_neg hland7]
        have hs0 : (0 : Int) < (p : Int) - 1 := by omega
        obtain ⟨hs2odd, hs2mul⟩ := shiftRight_zeroBits_spec hs0
        have hs2pos := shiftRight_zeroBits_pos hs0
        set e := zeroBits ((p : Int) - 1) with hedef
        set s2 := Int.shiftRight ((p : Int) - 1) e with hs2def
        have hMmul : s2.toNat * 2 ^ e = p - 1 := by
          have h2 : ((s2.toNat * 2 ^ e : Nat) : Int) = (p : Int) - 1 := by
            push_cast
            rw [Int.toNat_of_nonneg hs2pos.le]
            exact hs2mul
          omega
        have he1 : 1 ≤ e := by
          by_contra hcon
          have he0 : e = 0 := by omega
          rw [he0] at hMmul
          simp at hMmul
          omega
        have hnatabs : (((p : Int))).natAbs = p := Int.natAbs_ofNat p
        obtain ⟨n0, hn02, hn0p, hn0leg⟩ := exists_nonresidue hodd
        obtain ⟨n, hfind, hn0, hnleg⟩ :=
          findNonResidue_ok hodd p 2 (by omega) ⟨n0, hn02, hn0p, hn0leg⟩ (by omega)
        rw [hnatabs, hfind]
        dsimp only
        obtain ⟨y0, hpy⟩ : ∃ y0, powm x1 (Int.shiftRight (s2 + 1) 1) (p : Int) =
            Except.ok y0 := ⟨_, powm_ok hpI (shiftRight_nonneg (by omega) 1)⟩
        rw [hpy]
        dsimp only
        obtain ⟨b0, hpb⟩ : ∃ b0, powm x1 s2 (p : Int) = Except.ok b0 :=
          ⟨_, powm_ok hpI (by omega)⟩
        rw [hpb]
        dsimp only
        obtain ⟨g0, hpg⟩ : ∃ g0, powm n s2 (p : Int) = Except.ok g0 :=
          ⟨_, powm_ok hpI (by omega)⟩
        rw [hpg]
        dsimp only
        have hys : (Int.shiftRight (s2 + 1) 1).toNat = (s2.toNat + 1) / 2 := by
          rw [shiftRight_one_toNat (by omega)]
          congr 1
          omega
        have hY0 : ((y0 : Int) : ZMod p) = ((x1 : Int) : ZMod p) ^ ((s2.toNat + 1) / 2) := by
          have hc := powm_cast (shiftRight_nonneg (by omega) 1) hpy
          rwa [hys] at hc
        have hB0 : ((b0 : Int) : ZMod p) = ((x1 : Int) : ZMod p) ^ s2.toNat :=
          powm_cast (by omega) hpb
        have hG0 : ((g0 : Int) : ZMod p) = ((n : Int) : ZMod p) ^ s2.toNat :=
          powm_cast (by omega) hpg
        have hhalf : p / 2 = s2.toNat * 2 ^ (e - 1) := by
          have h2e : 2 ^ e = 2 * 2 ^ (e - 1) := by
            have hh := pow_succ' 2 (e - 1)
            rwa [show e - 1 + 1 = e from by omega] at hh
          have hK : s2.toNat * 2 ^ e = s2.toNat * 2 ^ (e - 1) * 2 := by
            rw [h2e]
            ring
          have hKeq : s2.toNat * 2 ^ (e - 1) * 2 = p - 1 := by
            rw [← hK]
            exact hMmul
          omega
        have hy0sq : ((y0 : Int) : ZMod p) ^ 2 =
            ((x1 : Int) : ZMod p) * ((b0 : Int) : ZMod p) := by
          rw [hY0, hB0, ← pow_mul]
          rw [show (s2.toNat + 1) / 2 * 2 = s2.toNat + 1 from by omega]
          rw [pow_succ']
        have hb0pow : ((b0 : Int) : ZMod p) ^ 2 ^ (e - 1) = 1 := by
          rw [hB0, ← pow_mul, ← hhalf]
          exact hEx1
        have hg0pow : ((g0 : Int) : ZMod p) ^ 2 ^ (e - 1) = -1 := by
          have hnE : ((n : Int) : ZMod p) ^ (p / 2) = -1 := legendre_neg_one_pow hnleg
          rw [hG0, ← pow_mul, ← hhalf]
          exact hnE
        obtain ⟨hy00, hy01⟩ := powm_range h2I hpy
        obtain ⟨hb00, hb01⟩ := powm_range h2I hpb
        obtain ⟨hg00, hg01⟩ := powm_range h2I hpg
        obtain ⟨v, hvloop, hvsq, hv0, hv1⟩ :=
          tsLoop_correct hp3 (((x1 : Int) : ZMod p)) (e + 1) y0 b0 g0 e
            hy00 hy01 hb00 hb01 hg00 hg01 he1 (by omega) hy0sq hb0pow hg0pow
        refine ⟨v, hvloop, ?_⟩
        apply cast_eq_modCore_eq (by omega)
        push_cast
        rw [hvsq, hX1]

/-- Witness for `sqrtm_spec`: `p = 7`, `x = 2` (`2` is a square mod `7`,
with `4 ^ 2 = 16 = 2 mod 7`). -/
theorem sqrtm_spec_witness :
    (7 : Nat) % 2 = 1 ∧ jacobiSym 2 7 = 1 ∧
    ∃ r, sqrtm 2 ((7 : Nat) : Int) = Except.ok r ∧
      modCore (r ^ 2) ((7 : Nat) : Int) = modCore 2 ((7 : Nat) : Int) := by
  haveI : Fact (Nat.Prime 7) := ⟨by norm_num⟩
  exact ⟨by norm_num, by norm_num,
    (sqrtm_spec (p := 7) (by norm_num) 2).2.2 (by norm_num)⟩

end Bcrypto
